import Mathlib

/-!
Verification of the google/statechart SCXML interpreter against its
natural-language specification.

The development shallowly embeds the relevant parts of the C++ sources:

* `Model::EventMatches`            (internal/model.cc)
* `RuntimeImpl` queue and `Serialize` (internal/runtime_impl.cc)
* `ModelImpl::ComputeExitSet`, `GetTransitionDomain`, `IsDescendant`,
  `FindLeastCommonCompoundAncestor`, `GetProperAncestors` (internal/model_impl.cc)
* `Executor::ExecuteUntilStable` and its helpers (internal/executor.cc)
* the `LightWeightDatamodel` expression machinery
  (internal/light_weight_datamodel.cc, internal/utility.cc)
* `ForEach::Execute` (internal/model/for_each.cc)

Strings manipulated character-by-character by the C++ code are embedded as
`List Char`; machine integers as `Int`/`Nat` (no verified statement depends on
overflow); C++ `double` as `Rat` (no verified statement depends on IEEE
rounding, only on exact zero tests and on which arithmetic branch is taken).
Parent-pointer walks of the state graph, which terminate in C++ because models
are trees, are embedded with an explicit fuel bound carried by the graph.
-/

namespace StateChart

/-! ## Event descriptor matching, from Model::EventMatches (internal/model.cc)

The C++ code iterates over the descriptor list; a descriptor matches if it is
the wildcard, or it is a prefix of the event name that either spans the whole
name or stops right before a dot. -/

/-- Embedding of the loop body of `Model::EventMatches` for one descriptor
`transitionEvent` against the fired `eventName`. -/
def descriptorMatches (eventName transitionEvent : List Char) : Bool :=
  transitionEvent == ['*'] ||
    (transitionEvent.isPrefixOf eventName &&
      (eventName.length == transitionEvent.length ||
        eventName[transitionEvent.length]? == some '.'))

/-- Embedding of `Model::EventMatches(event_name, events)`. -/
def eventMatches (eventName : List Char) (events : List (List Char)) : Bool :=
  events.any (descriptorMatches eventName)

/-! ## Runtime session state, from RuntimeImpl (internal/runtime_impl.cc) -/

/-- Mutable session state of `RuntimeImpl`: running flag, active state set
(states are identified by numeric ids into a state graph), FIFO internal event
queue of (name, payload) pairs, and the owned datamodel (type parameter). -/
structure RuntimeState (DM : Type) where
  running : Bool
  activeStates : List Nat
  internalQueue : List (String × String)
  datamodel : DM

/-- Embedding of `RuntimeImpl::HasInternalEvent`. -/
def hasInternalEvent {DM : Type} (rt : RuntimeState DM) : Bool :=
  !rt.internalQueue.isEmpty

/-- Embedding of `RuntimeImpl::DequeueInternalEvent`: returns a pair of empty
strings when the queue is empty (the `RETURN_VALUE_IF_MSG` path, which leaves
the runtime untouched), otherwise removes and returns the front element. -/
def dequeueInternalEvent {DM : Type} (rt : RuntimeState DM) :
    (String × String) × RuntimeState DM :=
  match rt.internalQueue with
  | [] => (("", ""), rt)
  | e :: rest => (e, { rt with internalQueue := rest })

/-- Embedding of `RuntimeImpl::EnqueueInternalEvent`: pushes to the back. -/
def enqueueInternalEvent {DM : Type} (rt : RuntimeState DM)
    (event payload : String) : RuntimeState DM :=
  { rt with internalQueue := rt.internalQueue ++ [(event, payload)] }

/-! ## The state graph, from internal/model_impl.cc

States are identified by `Nat` ids; the C++ `const model::State*` becomes
`Option Nat`, with `none` standing for `nullptr` (the chart root).  The graph
carries the parent map, the `IsCompound` predicate, and a fuel bound `bound`
for the parent-pointer walks (C++ walks terminate because models built by the
model builder are trees; `bound` only needs to exceed the tree height, and the
theorems below do not depend on its value). -/

structure StateGraph where
  bound : Nat
  parent : Nat → Option Nat
  compound : Nat → Bool

/-- The scan loop of `IsDescendant` (model_impl.cc:103-110): walk the parent
chain of the first state looking for `target`. -/
def isDescScan (g : StateGraph) (target : Nat) : Option Nat → Nat → Bool
  | none, _ => false
  | some _, 0 => false
  | some p, fuel + 1 =>
    if p = target then true else isDescScan g target (g.parent p) fuel

/-- Embedding of `IsDescendant(state1, state2)` (model_impl.cc:91-111): root is
a descendant of nothing, everything (non-root) is a descendant of root, no
state is a descendant of itself, otherwise scan the parent chain. -/
def isDescendant (g : StateGraph) : Option Nat → Option Nat → Bool
  | none, _ => false
  | some _, none => true
  | some s1, some s2 =>
    if s1 = s2 then false else isDescScan g s2 (g.parent s1) g.bound

/-- The loop of `GetProperAncestors(state, limit)` (model_impl.cc:77-88),
starting from a given parent pointer: collect ancestors, youngest first, until
the limit is reached.  (When the limit is absent the walk stops at the root.) -/
def properAncestorsFrom (g : StateGraph) (limit : Option Nat) :
    Option Nat → Nat → List Nat
  | _, 0 => []
  | p, fuel + 1 =>
    if p = limit then []
    else
      match p with
      | none => []
      | some s => s :: properAncestorsFrom g limit (g.parent s) fuel

/-- Embedding of `GetProperAncestors(state, state_ancestor_limit)`. -/
def getProperAncestors (g : StateGraph) (s : Nat) (limit : Option Nat) :
    List Nat :=
  properAncestorsFrom g limit (g.parent s) g.bound

/-- Embedding of `FindLeastCommonCompoundAncestor(states)`
(model_impl.cc:252-278): filter the proper ancestors of the head state down to
the compound ones and return the first that has every state of the tail as a
descendant; `none` stands for the root. -/
def findLCCA (g : StateGraph) : List Nat → Option Nat
  | [] => none
  | head :: tail =>
    ((getProperAncestors g head none).filter g.compound).find?
      (fun anc => tail.all fun s => isDescendant g (some s) (some anc))

/-- A model transition, as used by `GetTransitionDomain` and `ComputeExitSet`:
optional source state, target state list, and the internal/external flag. -/
structure Transition where
  source : Option Nat
  targets : List Nat
  internal : Bool
deriving DecidableEq

/-- Embedding of `GetTransitionDomain(transition)` (model_impl.cc:298-316). -/
def getTransitionDomain (g : StateGraph) (t : Transition) : Option Nat :=
  if t.targets.isEmpty then t.source
  else
    match t.source with
    | none => none
    | some src =>
      if t.internal && g.compound src &&
          t.targets.all (fun s => isDescendant g (some s) (some src)) then
        some src
      else findLCCA g (src :: t.targets)

/-- Embedding of `ModelImpl::ComputeExitSet(runtime, transitions)`
(model_impl.cc:501-529) as a set of states: a state of the active
configuration is exited iff it is a descendant of some transition's domain.
The C++ accumulates exactly this membership set (outer loop over transitions,
inner loop over active states, `std::set` insertion) and finally sorts it in
reverse document order; the sort is a permutation and is not modelled since
the verified statements concern membership only. -/
def computeExitSet (g : StateGraph) (active : List Nat)
    (transitions : List Transition) : List Nat :=
  active.filter fun s =>
    transitions.any fun t => isDescendant g (some s) (getTransitionDomain g t)

/-! ## Runtime serialization, from RuntimeImpl::Serialize
(internal/runtime_impl.cc:51-79 and 157-170)

Each active state contributes its `state → root` id path; the paths are
merged, root first, into a forest of `ActiveStateElement` records.  State ids
come from a separate `ids` map (the C++ `State::id()` accessor). -/

/-- An `StateMachineContext.Runtime.ActiveStateElement` record: a state id
and the list of its active children. -/
inductive ActiveStateElement where
  | node (id : String) (active_child : List ActiveStateElement)

/-- Embedding of `LookupOrInsert` (runtime_impl.cc:36-48) combined with one
level of `AddStatePathToActiveState`: find the element with the given id
(appending a fresh one at the end when absent) and transform its child list
with `sub`. -/
def insertInto (i : String) (sub : List ActiveStateElement → List ActiveStateElement) :
    List ActiveStateElement → List ActiveStateElement
  | [] => [.node i (sub [])]
  | .node j cs :: es =>
    if j = i then .node j (sub cs) :: es
    else .node j cs :: insertInto i sub es

/-- Embedding of `AddStatePathToActiveState` (runtime_impl.cc:51-65) on a
root-first id path. -/
def insertPath : List String → List ActiveStateElement → List ActiveStateElement
  | [], forest => forest
  | i :: rest, forest => insertInto i (insertPath rest) forest

/-- The `state → root` walk of `PopulateActiveStateElement`
(runtime_impl.cc:73-77), fuel-bounded like the other parent walks. -/
def chainToRoot (g : StateGraph) : Option Nat → Nat → List Nat
  | none, _ => []
  | some _, 0 => []
  | some s, fuel + 1 => s :: chainToRoot g (g.parent s) fuel

/-- The root-first id path inserted for one active state (the reversed
iteration of `AddStatePathToActiveState`). -/
def rootPathIds (g : StateGraph) (ids : Nat → String) (s : Nat) : List String :=
  ((chainToRoot g (some s) g.bound).reverse).map ids

/-- The `StateMachineContext.Runtime` record produced by `Serialize`:
running flag plus the active-state tree.  A default-constructed record has
`running = false` and no tree. -/
structure SerializedRuntime where
  running : Bool
  active_state : List ActiveStateElement

/-- Embedding of `RuntimeImpl::Serialize` (runtime_impl.cc:157-170): with
pending internal events the serialization is refused and the default record
returned; otherwise the record carries the running flag and the merged
root-path forest of all active states. -/
def serializeRuntime {DM : Type} (g : StateGraph) (ids : Nat → String)
    (rt : RuntimeState DM) : SerializedRuntime :=
  if !(hasInternalEvent rt) then
    { running := rt.running
      active_state := rt.activeStates.foldl
        (fun forest s => insertPath (rootPathIds g ids s) forest) [] }
  else { running := false, active_state := [] }

/-- All root-to-node id paths readable from a forest of
`ActiveStateElement` records; the semantics the C7 theorem is stated in. -/
def forestPaths : List ActiveStateElement → List (List String)
  | [] => []
  | .node i cs :: es =>
    [i] :: (forestPaths cs).map (i :: ·) ++ forestPaths es

/-- The parent walk from a state reaches the root within the given fuel
(true for every state of a tree-shaped model whose height is below the
graph's bound). -/
def walkEndsAtRoot (g : StateGraph) : Option Nat → Nat → Bool
  | none, _ => true
  | some _, 0 => false
  | some s, fuel + 1 => walkEndsAtRoot g (g.parent s) fuel

/-! ## Executor, from internal/executor.cc

The C++ `Executor` is written against the virtual `Model`, `Runtime` and
`Datamodel` interfaces; the embedding accordingly takes those collaborators as
a record of functions.  `microStep` stands for `Executor::MicroStep`
(exit states, run transition bodies, enter states) and `shutdown` for
`Executor::Shutdown`; both are kept opaque because the claims verified here
are about the macrostep loop's control flow, which never inspects their
result beyond what the hypotheses state — the theorems therefore hold for
every implementation of them. -/

/-- Embedding of `IsErrorEvent` (executor.cc:99-101): the event name is
exactly `error` or starts with `error.` (the `absl::StartsWith` test is taken
on the character lists). -/
def isErrorEvent (event : String) : Bool :=
  event == "error" || "error.".toList.isPrefixOf event.toList

/-- Embedding of `EscapeQuotes` (utility.cc): backslash-escape every backslash
and double quote. -/
def escapeQuotesChars : List Char → List Char
  | [] => []
  | c :: rest =>
    if c = '\\' || c = '"' then '\\' :: c :: escapeQuotesChars rest
    else c :: escapeQuotesChars rest

/-- Embedding of `MakeJSONError` (utility.cc): a one-field JSON object
carrying the escaped error message. -/
def makeJSONError (msg : String) : String :=
  "\x7b\"error\": \"" ++ String.mk (escapeQuotesChars msg.toList) ++ "\"\x7d"

/-- Modelled from the spec: `Runtime::EnqueueExecutionError` (declared in
internal/runtime.h, implementation not under src/) enqueues an
`error.execution` event whose payload is a JSON object carrying the message;
the payload is built here with `MakeJSONError` from utility.cc. -/
def enqueueExecutionError {DM : Type} (rt : RuntimeState DM) (msg : String) :
    RuntimeState DM :=
  enqueueInternalEvent rt "error.execution" (makeJSONError msg)

/-- The executor's collaborators: the model's transition-selection queries,
the datamodel's assignment operations (`none` = failure), and the opaque
microstep and shutdown bodies. -/
structure ExecutorEnv (DM : Type) where
  eventlessTransitions : RuntimeState DM → List Transition
  transitionsForEvent : RuntimeState DM → String → List Transition
  assignString : DM → String → String → Option DM
  assignExpression : DM → String → String → Option DM
  microStep : RuntimeState DM → List Transition → RuntimeState DM
  shutdown : RuntimeState DM → RuntimeState DM

/-- Embedding of `AssignStringOrEnqueueError` (executor.cc:75-83). -/
def assignStringOrEnqueueError {DM : Type} (env : ExecutorEnv DM)
    (rt : RuntimeState DM) (id str : String) : RuntimeState DM × Bool :=
  match env.assignString rt.datamodel id str with
  | some dm => ({ rt with datamodel := dm }, true)
  | none =>
    (enqueueExecutionError rt ("AssignString failed: " ++ id ++ " = " ++ str),
      false)

/-- Embedding of `AssignExpressionOrEnqueueError` (executor.cc:87-95). -/
def assignExpressionOrEnqueueError {DM : Type} (env : ExecutorEnv DM)
    (rt : RuntimeState DM) (id expr : String) : RuntimeState DM × Bool :=
  match env.assignExpression rt.datamodel id expr with
  | some dm => ({ rt with datamodel := dm }, true)
  | none =>
    (enqueueExecutionError rt
      ("AssignExpression failed: " ++ id ++ " = " ++ expr), false)

/-- Embedding of `Executor::AssignEventData` (executor.cc:392-402): assign
`_event.name`; on success, assign `_event.data` when the payload is
non-empty.  Failures enqueue `error.execution` and stop further fields. -/
def assignEventData {DM : Type} (env : ExecutorEnv DM) (rt : RuntimeState DM)
    (event payload : String) : RuntimeState DM :=
  match assignStringOrEnqueueError env rt "_event.name" event with
  | (rt1, false) => rt1
  | (rt1, true) =>
    if payload.isEmpty then rt1
    else (assignExpressionOrEnqueueError env rt1 "_event.data" payload).1

/-- The macrostep loop of `Executor::ExecuteUntilStable` (executor.cc:160-201)
with the remaining iteration budget as fuel.  Being pure, the event-branch
repeats the `assignEventData`/`transitionsForEvent` sub-terms that C++
computes once; the copies are identical values. -/
def macroLoop {DM : Type} (env : ExecutorEnv DM) :
    Nat → RuntimeState DM → RuntimeState DM
  | 0, rt => rt
  | fuel + 1, rt =>
    if !rt.running then rt
    else if (env.eventlessTransitions rt).isEmpty then
      match rt.internalQueue with
      | [] => rt
      | (e, p) :: rest =>
        if isErrorEvent e &&
            (env.transitionsForEvent
              (assignEventData env { rt with internalQueue := rest } e p)
              e).isEmpty then
          assignEventData env { rt with internalQueue := rest } e p
        else if (env.transitionsForEvent
            (assignEventData env { rt with internalQueue := rest } e p)
            e).isEmpty then
          macroLoop env fuel
            (assignEventData env { rt with internalQueue := rest } e p)
        else
          macroLoop env fuel
            (env.microStep
              (assignEventData env { rt with internalQueue := rest } e p)
              (env.transitionsForEvent
                (assignEventData env { rt with internalQueue := rest } e p) e))
    else macroLoop env fuel (env.microStep rt (env.eventlessTransitions rt))

/-- Default value of the `max_num_microsteps` flag (executor.cc:36-37). -/
def maxNumMicrosteps : Nat := 1000

/-- Embedding of `Executor::ExecuteUntilStable` (executor.cc:156-217): run the
macrostep loop for at most `maxNumMicrosteps` microsteps, then shut down if
the runtime stopped running. -/
def executeUntilStable {DM : Type} (env : ExecutorEnv DM)
    (rt : RuntimeState DM) : RuntimeState DM :=
  if !(macroLoop env maxNumMicrosteps rt).running then
    env.shutdown (macroLoop env maxNumMicrosteps rt)
  else macroLoop env maxNumMicrosteps rt

/-- One eventless microstep: what each iteration of the macrostep loop does
while eventless transitions stay enabled. -/
def eventlessMicroStep {DM : Type} (env : ExecutorEnv DM) :
    RuntimeState DM → RuntimeState DM :=
  fun r => env.microStep r (env.eventlessTransitions r)

/-! ## The LightWeightDatamodel value model
(internal/light_weight_datamodel.cc, json library Json::Value)

Values are the JSON-like values of the store.  C++ `double` is embedded as
`Rat`: no verified statement depends on IEEE rounding, only on exact zero
tests and on which arithmetic branch is taken.  Strings are `List Char`
(`std::string` manipulated byte by byte).  Objects are association lists;
the json library's sorted-map member order is not modelled (no verified
statement depends on member order).  The numeric classification predicates
follow the json library the repository builds against, whose tests pin
`isDouble` to hold for integer values (`0.5 / 0.1 / 2` must evaluate). -/

inductive JsonValue where
  | null
  | bool (b : Bool)
  | int (n : Int)
  | real (q : Rat)
  | str (s : List Char)
  | arr (elems : List JsonValue)
  | obj (fields : List (List Char × JsonValue))

/-- `Json::Value::isNull`. -/
def JsonValue.isNull : JsonValue → Bool
  | .null => true
  | _ => false

/-- `Json::Value::isBool`. -/
def JsonValue.isBool : JsonValue → Bool
  | .bool _ => true
  | _ => false

/-- `Json::Value::isString`. -/
def JsonValue.isString : JsonValue → Bool
  | .str _ => true
  | _ => false

/-- `Json::Value::isArray`. -/
def JsonValue.isArray : JsonValue → Bool
  | .arr _ => true
  | _ => false

/-- `Json::Value::isObject`. -/
def JsonValue.isObject : JsonValue → Bool
  | .obj _ => true
  | _ => false

/-- `Json::Value::isDouble`: true for integer- and real-typed values. -/
def JsonValue.isDouble : JsonValue → Bool
  | .int _ => true
  | .real _ => true
  | _ => false

/-- `Json::Value::isNumeric`: same as `isDouble` (booleans excluded). -/
def JsonValue.isNumeric : JsonValue → Bool
  | .int _ => true
  | .real _ => true
  | _ => false

/-- `Json::Value::isIntegral`: integer-typed values and real-typed values
holding an exact integer (the int64-range restriction is not modelled; no
verified statement exercises it). -/
def JsonValue.isIntegral : JsonValue → Bool
  | .int _ => true
  | .real q => q.den = 1
  | _ => false

/-- Truncation of a rational toward zero (the C++ `double → int`
conversion). -/
def ratTrunc (q : Rat) : Int :=
  q.num.tdiv q.den

/-- `Json::Value::asInt` on the values the embedded code applies it to
(numeric and boolean values; elsewhere the C++ conversion throws and the
callers below never reach it — those branches return 0 here). -/
def JsonValue.asInt : JsonValue → Int
  | .bool b => if b then 1 else 0
  | .int n => n
  | .real q => ratTrunc q
  | _ => 0

/-- `Json::Value::asDouble` on the values the embedded code applies it to
(same caveat as `asInt`). -/
def JsonValue.asDouble : JsonValue → Rat
  | .null => 0
  | .bool b => if b then 1 else 0
  | .int n => (n : Rat)
  | .real q => q
  | _ => 0

/-- Decimal representation of an integer. -/
def intToChars (n : Int) : List Char :=
  (toString n).toList

/-- Textual representation of an embedded double.  The C++ `%.17g`
formatting of IEEE doubles is not modelled (no verified statement relies on
the text of a real number). -/
def realToChars (q : Rat) : List Char :=
  (toString q).toList

/-- `Json::Value::isMember`. -/
def jsonIsMember (fields : List (List Char × JsonValue)) (key : List Char) :
    Bool :=
  fields.any fun f => f.1 == key

/-- Member lookup on an object's association list. -/
def jsonGetMember (fields : List (List Char × JsonValue)) (key : List Char) :
    Option JsonValue :=
  (fields.find? fun f => f.1 == key).map (·.2)

/-- Member write on an object's association list, inserting at the end when
absent (the sorted-map order of the json library is not modelled). -/
def jsonSetMember (fields : List (List Char × JsonValue)) (key : List Char)
    (v : JsonValue) : List (List Char × JsonValue) :=
  match fields with
  | [] => [(key, v)]
  | (k, w) :: rest =>
    if k == key then (k, v) :: rest
    else (k, w) :: jsonSetMember rest key v

/-- Array write through `Json::Value::operator[](index)`: the array grows
with nulls up to the index when needed. -/
def jsonSetIndex (elems : List JsonValue) (i : Nat) (v : JsonValue) :
    List JsonValue :=
  match elems, i with
  | [], 0 => [v]
  | [], n + 1 => JsonValue.null :: jsonSetIndex [] n v
  | _ :: rest, 0 => v :: rest
  | e :: rest, n + 1 => e :: jsonSetIndex rest n v

/-! ## Expression tokens (class Token, light_weight_datamodel.cc:169-394) -/

/-- The sentinel `UndefinedJSON()` (light_weight_datamodel.cc:106-110). -/
def undefinedJSON : JsonValue :=
  .str "__INTERNAL_UNDEFINED_VALUE__".toList

/-- An expression token: empty (default-constructed), an owned literal
value, a reference into the store, an operator, or a system function name.
A C++ reference token holds a pointer into the store; since expression
evaluation never writes through it, the embedding carries the pointed-to
value directly. -/
inductive Token where
  | empty
  | value (v : JsonValue)
  | ref (v : JsonValue)
  | op (s : List Char)
  | sysfun (s : List Char)

/-- `Token::IsValue`: literal values and references. -/
def Token.isValue : Token → Bool
  | .value _ => true
  | .ref _ => true
  | _ => false

/-- `Token::IsReference`. -/
def Token.isRef : Token → Bool
  | .ref _ => true
  | _ => false

/-- `Token::IsOperator`. -/
def Token.isOperator : Token → Bool
  | .op _ => true
  | _ => false

/-- `Token::IsSystemFunction`. -/
def Token.isSystemFunction : Token → Bool
  | .sysfun _ => true
  | _ => false

/-- `Token::Value`, returning the sentinel for non-values. -/
def Token.val : Token → JsonValue
  | .value v => v
  | .ref v => v
  | _ => undefinedJSON

/-- `Token::Operator`, empty for non-operators. -/
def Token.opStr : Token → List Char
  | .op s => s
  | _ => []

/-- `Token::SystemFunction`, empty for non-system-functions. -/
def Token.sysStr : Token → List Char
  | .sysfun s => s
  | _ => []

/-- `Token::IsInteger`: a numeric value whose type is not real. -/
def Token.isInteger (t : Token) : Bool :=
  t.isValue && t.val.isNumeric &&
    (match t.val with | .real _ => false | _ => true)

/-- `Token::ToBool` (light_weight_datamodel.cc:386-394): objects and arrays
are true, strings by non-emptiness, otherwise `Json::Value::asBool`
(null false, booleans direct, numbers by non-zeroness). -/
def Token.toBool (t : Token) : Bool :=
  if !t.isValue then false
  else
    match t.val with
    | .obj _ => true
    | .arr _ => true
    | .str s => !s.isEmpty
    | .null => false
    | .bool b => b
    | .int n => n != 0
    | .real q => q != 0

/-! ## Numeric operations (light_weight_datamodel.cc:482-698) -/

/-- Embedding of the `NumericOperationMeta` template
(light_weight_datamodel.cc:487-503): integer operation when both operands
are integer-typed (booleans count as 0/1), double operation when both are
numeric-or-boolean, error otherwise.  The C++ template instantiates
`Json::Value` construction from the operation's result type; `encI`/`encD`
are those constructors for the integer and double instantiations. -/
def numericOperationMeta {α β : Type} (encI : α → JsonValue)
    (encD : β → JsonValue) (intOp : Int → Int → α) (dblOp : Rat → Rat → β)
    (a b : Token) : Option Token :=
  let va := a.val
  let vb := b.val
  if (a.isInteger || va.isBool) && (b.isInteger || vb.isBool) then
    some (.value (encI (intOp va.asInt vb.asInt)))
  else if (va.isDouble || va.isBool) && (vb.isDouble || vb.isBool) then
    some (.value (encD (dblOp va.asDouble vb.asDouble)))
  else none

/-! ## String utilities (internal/utility.cc, platform/str_util.cc) -/

/-- ASCII whitespace of `absl::StripAsciiWhitespace`. -/
def isSpaceByte (c : Char) : Bool :=
  c = ' ' || c = '\t' || c = '\n' || c = '\r' || c = '\x0b' || c = '\x0c'

/-- `absl::StripAsciiWhitespace`. -/
def stripWSChars (s : List Char) : List Char :=
  ((s.dropWhile isSpaceByte).reverse.dropWhile isSpaceByte).reverse

/-- The scan loop of `IsQuotedString` (utility.cc:35-45): no unescaped
quote mark strictly inside the string. -/
def noUnescapedQuote (q : Char) : Char → List Char → Bool
  | _, [] => true
  | prev, c :: rest =>
    if c = q && prev ≠ '\\' then false else noUnescapedQuote q c rest

/-- Embedding of `IsQuotedString(str, quote_mark)` (utility.cc:33-44). -/
def isQuotedStringChars (s : List Char) (q : Char) : Bool :=
  match s with
  | [] => false
  | c :: rest =>
    match rest with
    | [] => false
    | _ :: _ =>
      c == q && rest.getLast? == some q && noUnescapedQuote q c rest.dropLast

/-- Embedding of `strings::BackslashUnescape` (platform/str_util.cc): the
`escaped` flag is the second argument. -/
def backslashUnescape (inSet : Char → Bool) : List Char → Bool → List Char
  | [], escaped => if escaped then ['\\'] else []
  | c :: rest, true =>
    if inSet c then c :: backslashUnescape inSet rest false
    else if c = '\\' then '\\' :: backslashUnescape inSet rest true
    else '\\' :: c :: backslashUnescape inSet rest false
  | c :: rest, false =>
    if c = '\\' then backslashUnescape inSet rest true
    else c :: backslashUnescape inSet rest false

/-- Embedding of `Unquote(str, quote_mark)` (utility.cc:46-58). -/
def unquoteChars (s : List Char) (q : Char) : List Char :=
  if isQuotedStringChars s q then
    backslashUnescape (fun c => c = '\\' || c = q) (s.drop 1).dropLast false
  else s

/-- Embedding of `Quote(str)` (utility.cc:60-66): already double-quoted
strings pass through, otherwise quote and backslash-escape. -/
def quoteChars (s : List Char) : List Char :=
  if isQuotedStringChars s '"' then s
  else '"' :: escapeQuotesChars s ++ ['"']

/-- Embedding of `MaybeJSON` (utility.cc:73-77): full match of optional
whitespace, an open brace, anything, a close brace, optional whitespace. -/
def maybeJSONChars (s : List Char) : Bool :=
  let t := stripWSChars s
  match t with
  | [] => false
  | c :: rest =>
    match rest with
    | [] => false
    | _ :: _ => c = Char.ofNat 123 && rest.getLast? = some (Char.ofNat 125)

/-- Embedding of `MaybeJSONArray` (utility.cc:79-83). -/
def maybeJSONArrayChars (s : List Char) : Bool :=
  let t := stripWSChars s
  match t with
  | [] => false
  | c :: rest =>
    match rest with
    | [] => false
    | _ :: _ => c = '[' && rest.getLast? = some ']'

/-! ## Value printing (ValueToString, light_weight_datamodel.cc:142-163;
Json::FastWriter of the json library) -/

mutual

/-- The compact output of `Json::FastWriter` (trailing newline already
removed, as `ValueToString` does).  Never evaluated by a verified
statement's concrete run. -/
def fastWrite : JsonValue → List Char
  | .null => "null".toList
  | .bool b => if b then "true".toList else "false".toList
  | .int n => intToChars n
  | .real q => realToChars q
  | .str s => '"' :: escapeQuotesChars s ++ ['"']
  | .arr es => '[' :: fastWriteElems es ++ [']']
  | .obj fs => Char.ofNat 123 :: fastWriteFields fs ++ [Char.ofNat 125]

/-- Comma-separated compact output of array elements. -/
def fastWriteElems : List JsonValue → List Char
  | [] => []
  | [e] => fastWrite e
  | e :: rest => fastWrite e ++ ',' :: fastWriteElems rest

/-- Comma-separated compact output of object members. -/
def fastWriteFields : List (List Char × JsonValue) → List Char
  | [] => []
  | [(k, v)] => '"' :: escapeQuotesChars k ++ '"' :: ':' :: fastWrite v
  | (k, v) :: rest =>
    '"' :: escapeQuotesChars k ++ '"' :: ':' :: fastWrite v ++
      ',' :: fastWriteFields rest

end

/-- Embedding of `ValueToString(value, quote_string)`
(light_weight_datamodel.cc:142-157). -/
def valueToString (v : JsonValue) (quoteString : Bool) : List Char :=
  match v with
  | .obj _ => fastWrite v
  | .arr _ => fastWrite v
  | .null => "null".toList
  | .str s => if quoteString then quoteChars s else s
  | .bool b => if b then "true".toList else "false".toList
  | .int n => intToChars n
  | .real q => realToChars q

/-! ## Binary and unary operations
(light_weight_datamodel.cc:505-778) -/

/-- Embedding of `PlusOperation` (light_weight_datamodel.cc:511-520):
a string operand stringifies and concatenates, otherwise numeric
addition. -/
def plusOperation (a b : Token) : Option Token :=
  if a.val.isString || b.val.isString then
    some (.value (.str
      (valueToString a.val false ++ valueToString b.val false)))
  else
    numericOperationMeta JsonValue.int JsonValue.real (· + ·) (· + ·) a b

/-- Embedding of `MinusOperation` (light_weight_datamodel.cc:523-526). -/
def minusOperation (a b : Token) : Option Token :=
  numericOperationMeta JsonValue.int JsonValue.real (· - ·) (· - ·) a b

/-- Embedding of `AdditiveOperation` (light_weight_datamodel.cc:529-539). -/
def additiveOperation (o a b : Token) : Option Token :=
  if o.opStr == "+".toList then plusOperation a b
  else if o.opStr == "-".toList then minusOperation a b
  else none

/-- Embedding of `MultiplyOperation` (light_weight_datamodel.cc:542-545). -/
def multiplyOperation (a b : Token) : Option Token :=
  numericOperationMeta JsonValue.int JsonValue.real (· * ·) (· * ·) a b

/-- Embedding of `DivideOperation` (light_weight_datamodel.cc:548-557):
fail on a numeric zero divisor, otherwise divide with `std::divides` on the
integer branch (truncation toward zero; the `int` width is not modelled)
and real division on the double branch. -/
def divideOperation (a b : Token) : Option Token :=
  if b.val.isNumeric && b.val.asDouble == 0 then none
  else numericOperationMeta JsonValue.int JsonValue.real Int.tdiv (· / ·) a b

/-- Embedding of `MultiplicativeOperation`
(light_weight_datamodel.cc:560-570). -/
def multiplicativeOperation (o a b : Token) : Option Token :=
  if o.opStr == "*".toList then multiplyOperation a b
  else if o.opStr == "/".toList then divideOperation a b
  else none

/-- Lexicographic byte comparison of `std::string::operator<`. -/
def charsLt : List Char → List Char → Bool
  | [], [] => false
  | [], _ :: _ => true
  | _ :: _, [] => false
  | a :: xs, b :: ys =>
    if a < b then true else if b < a then false else charsLt xs ys

/-- Embedding of `StringComparison` (light_weight_datamodel.cc:577-605):
both operands must be strings. -/
def stringComparison (cmp a b : Token) : Option Token :=
  match a.val, b.val with
  | .str x, .str y =>
    if cmp.opStr == "==".toList then some (.value (.bool (x == y)))
    else if cmp.opStr == "!=".toList then some (.value (.bool (x != y)))
    else if cmp.opStr == "<".toList then some (.value (.bool (charsLt x y)))
    else if cmp.opStr == "<=".toList then
      some (.value (.bool (!charsLt y x)))
    else if cmp.opStr == ">".toList then some (.value (.bool (charsLt y x)))
    else if cmp.opStr == ">=".toList then
      some (.value (.bool (!charsLt x y)))
    else none
  | _, _ => none

/-- Embedding of `NumericComparison` (light_weight_datamodel.cc:610-636):
numeric operands compared through `NumericOperationMeta` with the boolean
comparator pair selected by the operator. -/
def numericComparison (cmp a b : Token) : Option Token :=
  if !a.val.isNumeric || !b.val.isNumeric then none
  else if cmp.opStr == "==".toList then
    numericOperationMeta JsonValue.bool JsonValue.bool
      (fun x y => x == y) (fun x y => x == y) a b
  else if cmp.opStr == "!=".toList then
    numericOperationMeta JsonValue.bool JsonValue.bool
      (fun x y => x != y) (fun x y => x != y) a b
  else if cmp.opStr == "<".toList then
    numericOperationMeta JsonValue.bool JsonValue.bool
      (fun x y => decide (x < y)) (fun x y => decide (x < y)) a b
  else if cmp.opStr == "<=".toList then
    numericOperationMeta JsonValue.bool JsonValue.bool
      (fun x y => decide (x ≤ y)) (fun x y => decide (x ≤ y)) a b
  else if cmp.opStr == ">".toList then
    numericOperationMeta JsonValue.bool JsonValue.bool
      (fun x y => decide (y < x)) (fun x y => decide (y < x)) a b
  else if cmp.opStr == ">=".toList then
    numericOperationMeta JsonValue.bool JsonValue.bool
      (fun x y => decide (y ≤ x)) (fun x y => decide (y ≤ x)) a b
  else none

/-- Embedding of `ComparisonOperation` (light_weight_datamodel.cc:640-682):
boolean pairs support only equality, null supports only equality, then
numeric and string comparison are tried in order. -/
def comparisonOperation (cmp a b : Token) : Option Token :=
  if !a.isValue || !b.isValue then none
  else
    let va := a.val
    let vb := b.val
    if va.isBool && vb.isBool then
      if cmp.opStr == "==".toList then
        some (.value (.bool (a.toBool == b.toBool)))
      else if cmp.opStr == "!=".toList then
        some (.value (.bool (a.toBool != b.toBool)))
      else none
    else if va.isNull || vb.isNull then
      if cmp.opStr == "==".toList || cmp.opStr == "!=".toList then
        if (cmp.opStr == "==".toList && va.isNull && vb.isNull) ||
            (cmp.opStr == "!=".toList && (!va.isNull || !vb.isNull)) then
          some (.value (.bool true))
        else some (.value (.bool false))
      else none
    else
      match numericComparison cmp a b with
      | some r => some r
      | none => stringComparison cmp a b

/-- Embedding of `LogicalAndOperation`
(light_weight_datamodel.cc:685-690). -/
def logicalAndOperation (o a b : Token) : Option Token :=
  if o.opStr != "&&".toList then none
  else some (.value (.bool (a.toBool && b.toBool)))

/-- Embedding of `LogicalOrOperation`
(light_weight_datamodel.cc:693-698). -/
def logicalOrOperation (o a b : Token) : Option Token :=
  if o.opStr != "||".toList then none
  else some (.value (.bool (a.toBool || b.toBool)))

/-- Embedding of `UnaryMinusOperation`
(light_weight_datamodel.cc:761-771): numeric operands only; `isDouble`
(which includes integer-typed values) negates as a double. -/
def unaryMinusOperation (o v : Token) : Option Token :=
  if o.opStr != "-".toList then none
  else if !v.val.isNumeric then none
  else if v.val.isDouble then some (.value (.real (-v.val.asDouble)))
  else some (.value (.int (-v.val.asInt)))

/-- Embedding of `LogicalNotOperation`
(light_weight_datamodel.cc:774-778). -/
def logicalNotOperation (o v : Token) : Option Token :=
  if o.opStr != "!".toList then none
  else some (.value (.bool (!v.toBool)))

/-! ## Literal parsing (absl::SimpleAtoi / absl::SimpleAtod as used by
Token::Create) -/

/-- Value of a digit string. -/
def digitsVal (s : List Char) : Nat :=
  s.foldl (fun acc c => acc * 10 + (c.toNat - 48)) 0

/-- A nonempty all-digit string, or failure. -/
def parseDigits (s : List Char) : Option Nat :=
  if !s.isEmpty && s.all Char.isDigit then some (digitsVal s) else none

/-- `absl::SimpleAtoi<int64>`: an optional sign followed by digits, matching
the whole string (the int64 overflow failure is not modelled; no verified
statement exercises it). -/
def parseIntChars (s : List Char) : Option Int :=
  match s with
  | '+' :: rest => (parseDigits rest).map Int.ofNat
  | '-' :: rest => (parseDigits rest).map fun n => -(n : Int)
  | _ => (parseDigits s).map Int.ofNat

/-- Case-insensitive comparison against an ASCII keyword. -/
def lowerEqKeyword (s : List Char) (kw : List Char) : Bool :=
  s.map Char.toLower == kw

/-- Split at the first character satisfying `p`; the second component holds
whatever follows that character, if any. -/
def splitFirst (p : Char → Bool) : List Char → List Char × Option (List Char)
  | [] => ([], none)
  | c :: rest =>
    if p c then ([], some rest)
    else
      match splitFirst p rest with
      | (a, b) => (c :: a, b)

/-- The decimal/scientific core accepted by `absl::SimpleAtod`:
`digits [. digits] [(e|E) [sign] digits]` with at least one mantissa digit,
matching the whole string. -/
def parseDoubleCore (body : List Char) : Option Rat :=
  match splitFirst (fun c => c = 'e' || c = 'E') body with
  | (mant, expPart) =>
    let expVal : Option Int :=
      match expPart with
      | none => some 0
      | some e => parseIntChars e
    match expVal with
    | none => none
    | some ex =>
      match splitFirst (fun c => c = '.') mant with
      | (ip, fpOpt) =>
        let fp := fpOpt.getD []
        if (ip.isEmpty && fp.isEmpty) || !ip.all Char.isDigit ||
            !fp.all Char.isDigit then none
        else
          let base : Rat := (digitsVal ip : Rat) +
            (digitsVal fp : Rat) / ((10 : Rat) ^ fp.length)
          some (base * (10 : Rat) ^ ex)

/-- `absl::SimpleAtod`: optional sign, then a decimal/scientific number or
one of the keywords `inf`, `infinity`, `nan` (case-insensitive), matching
the whole string.  IEEE infinities and NaN are not representable here and
are mapped to 0 — no verified statement exercises those strings (hex float
forms are likewise not modelled). -/
def parseDoubleChars (s : List Char) : Option Rat :=
  match s with
  | [] => none
  | _ =>
    let sgn : Rat := if s.head? = some '-' then -1 else 1
    let body := if s.head? = some '-' || s.head? = some '+' then s.drop 1 else s
    if lowerEqKeyword body "inf".toList ||
        lowerEqKeyword body "infinity".toList ||
        lowerEqKeyword body "nan".toList then
      some 0
    else (parseDoubleCore body).map (fun q => sgn * q)

/-! ## Json::Path (json library collaborator) -/

/-- A parsed `Json::Path` argument. -/
inductive PathArg where
  | key (k : List Char)
  | index (i : Nat)

/-- Modelled from the json library (external collaborator):
`Json::Path` parsing — keys separated by dots, numeric indices within
brackets; malformed bracket groups are skipped like the library's no-op
`invalidPath` handler.  Only key-and-index paths reach this in verified
statements. -/
def parseJsonPathGo : Nat → List Char → List PathArg
  | 0, _ => []
  | _ + 1, [] => []
  | fuel + 1, c :: rest =>
    if c = '[' then
      let digits := rest.takeWhile Char.isDigit
      let after0 := rest.dropWhile Char.isDigit
      let after := match after0 with
        | ']' :: r => r
        | r => r
      .index (digitsVal digits) :: parseJsonPathGo fuel after
    else if c = '.' then parseJsonPathGo fuel rest
    else
      .key ((c :: rest).takeWhile fun x => x ≠ '.' && x ≠ '[') ::
        parseJsonPathGo fuel
          ((c :: rest).dropWhile fun x => x ≠ '.' && x ≠ '[')

/-- Modelled from the json library: `Json::Path` expression parsing. -/
def parseJsonPath (s : List Char) : List PathArg :=
  parseJsonPathGo (s.length + 1) s

/-- Modelled from the json library: `Json::Path::resolve` — key steps need
an object member, index steps an in-range array element; anything else
yields the supplied default (here `none`). -/
def pathResolve : JsonValue → List PathArg → Option JsonValue
  | v, [] => some v
  | .obj fields, .key k :: rest =>
    match jsonGetMember fields k with
    | some v => pathResolve v rest
    | none => none
  | .arr es, .index i :: rest =>
    match es.get? i with
    | some v => pathResolve v rest
    | none => none
  | _, _ => none

/-- The comparison against `UndefinedJSON()` in `FindValueInStore`:
`Json::Value::operator==` holds exactly for an equal string value. -/
def isUndefinedSentinel : JsonValue → Bool
  | .str s => s == "__INTERNAL_UNDEFINED_VALUE__".toList
  | _ => false

/-- Embedding of `FindValueInStore(store, location)`
(light_weight_datamodel.cc:130-140): resolve the path and reject the
not-found sentinel. -/
def findValueInStore (store : JsonValue) (location : List Char) :
    Option JsonValue :=
  match pathResolve store (parseJsonPath location) with
  | none => none
  | some v => if isUndefinedSentinel v then none else some v

/-! ## Tokenization (internal::TokenizeExpression,
light_weight_datamodel.cc:1721-1782) -/

/-- The operator strings of `kOperators` (light_weight_datamodel.cc:65-68). -/
def kOperators : List (List Char) :=
  [",", "(", ")", "[", "]", "+", "-", "*", "/",
    "<", "<=", "==", "!=", ">=", ">", "&&", "||", "!"].map String.toList

/-- Embedding of `IsOperatorString` (light_weight_datamodel.cc:124-126). -/
def isOperatorString (s : List Char) : Bool :=
  kOperators.any (· == s)

/-- The longest-operator match of the tokenizer's inner loop
(light_weight_datamodel.cc:1744-1753). -/
def matchOperator (cs : List Char) : Option (List Char) :=
  kOperators.foldl
    (fun best o =>
      if o.isPrefixOf cs && o.length > (best.getD []).length then some o
      else best)
    none

/-- Emit one whitespace-stripped operand, skipping empty ones. -/
def emitOperand (cur : List Char) : List (List Char) :=
  let o := stripWSChars cur
  if o.isEmpty then [] else [o]

/-- The scan loop of `TokenizeExpression`: `prev` is the previously read
character, `inStr`/`q` the string-tracking state, `cur` the pending operand
and `acc` the produced tokens.  The fuel starts above the character count
and each step consumes at least one character, so the fuel never runs out
on the initial call. -/
def tokenizeGo : Nat → List Char → Option Char → Bool → Char → List Char →
    List (List Char) → List (List Char)
  | 0, _, _, _, _, cur, acc => acc ++ emitOperand cur
  | _ + 1, [], _, _, _, cur, acc => acc ++ emitOperand cur
  | fuel + 1, c :: rest, prev, inStr, q, cur, acc =>
    let isQuote := c = '"' || c = '\''
    let inStr' := if isQuote then
        (if inStr then (prev == some '\\' || c ≠ q) else true)
      else inStr
    let q' := if isQuote && !inStr then c else q
    if inStr' then tokenizeGo fuel rest (some c) inStr' q' (cur ++ [c]) acc
    else
      match matchOperator (c :: rest) with
      | some o =>
        tokenizeGo fuel ((c :: rest).drop o.length) o.getLast? false q' []
          (acc ++ emitOperand cur ++ [o])
      | none => tokenizeGo fuel rest (some c) inStr' q' (cur ++ [c]) acc

/-- Embedding of `internal::TokenizeExpression`. -/
def tokenizeExpression (expr : List Char) : List (List Char) :=
  tokenizeGo (expr.length + 1) expr none false ' ' [] []

/-! ## Preprocessing (PresubstituteStringTokens,
light_weight_datamodel.cc:1102-1177) -/

/-- `absl::StrSplit(s, ".", absl::SkipEmpty())`: all pieces, empties kept. -/
def splitDotsAll : List Char → List (List Char)
  | [] => [[]]
  | '.' :: rest => [] :: splitDotsAll rest
  | c :: rest =>
    match splitDotsAll rest with
    | a :: as => (c :: a) :: as
    | [] => [[c]]

/-- `absl::StrSplit` with `SkipEmpty`. -/
def splitDotsSkipEmpty (s : List Char) : List (List Char) :=
  (splitDotsAll s).filter (fun p => !p.isEmpty)

/-- The per-token rewriting of `PresubstituteStringTokens`: single-quoted
strings become double-quoted; a token starting with a dot becomes a chain
of bracketed quoted segments; a token ending in `.length` whose prefix
resolves to an array in the store becomes a bracketed `length` access. -/
def presubOne (store : JsonValue) (t : List Char) : List (List Char) :=
  if isQuotedStringChars t '\'' then [quoteChars (unquoteChars t '\'')]
  else if t.head? == some '.' then
    (splitDotsSkipEmpty t).foldr
      (fun seg acc => "[".toList :: quoteChars seg :: "]".toList :: acc) []
  else if ".length".toList.isSuffixOf t then
    let objLoc := t.take (t.length - 7)
    match findValueInStore store objLoc with
    | some v =>
      if v.isArray then
        [objLoc, "[".toList, quoteChars "length".toList, "]".toList]
      else [t]
    | none => [t]
  else [t]

/-- Embedding of `ComputeRandom` (light_weight_datamodel.cc:1105-1130).
The C++ draw is a time-seeded uniform real; it is fixed to the literal 0
here, and no verified statement contains the `Math.random ( )` token
sequence. -/
def computeRandom : List (List Char) → List (List Char)
  | t1 :: t2 :: t3 :: rest =>
    if t1 == "Math.random".toList && t2 == "(".toList && t3 == ")".toList
    then "0".toList :: computeRandom rest
    else t1 :: computeRandom (t2 :: t3 :: rest)
  | l => l

/-- Embedding of `PresubstituteStringTokens`
(light_weight_datamodel.cc:1142-1177). -/
def presubstituteStringTokens (store : JsonValue)
    (toks : List (List Char)) : List (List Char) :=
  computeRandom ((toks.map (presubOne store)).flatten)

/-! ## Token construction (Token::Create,
light_weight_datamodel.cc:280-350) -/

/-- The collaborators of the datamodel: the function dispatcher interface
(`HasFunction` / `Execute`, with `none` as execution failure) and
`Json::Reader::parse` from the json library (`none` = parse failure; no
verified statement reaches a successful JSON-literal parse, and the
theorems hold for every `jsonParse`). -/
structure LwdCtx where
  hasFunction : List Char → Bool
  execute : List Char → List JsonValue → Option JsonValue
  jsonParse : List Char → Option JsonValue

/-- Embedding of `Token::Create` (light_weight_datamodel.cc:280-350):
classify a string token in priority order — null, booleans, operator,
integer, double, quoted string, JSON object/array literal, the built-in
`In`, dispatcher functions, then store references; anything else is a
lexical error (`none`). -/
def tokenCreate (ctx : LwdCtx) (store : JsonValue) (expr0 : List Char) :
    Option Token :=
  let expr := stripWSChars expr0
  if expr.isEmpty || expr == "null".toList then some (.value .null)
  else if expr == "true".toList then some (.value (.bool true))
  else if expr == "false".toList then some (.value (.bool false))
  else if isOperatorString expr then some (.op expr)
  else
    match parseIntChars expr with
    | some n => some (.value (.int n))
    | none =>
      match parseDoubleChars expr with
      | some q => some (.value (.real q))
      | none =>
        if isQuotedStringChars expr '"' then
          some (.value (.str (unquoteChars expr '"')))
        else
          match
            (if maybeJSONArrayChars expr || maybeJSONChars expr then
              ctx.jsonParse expr
            else none) with
          | some v => some (.value v)
          | none =>
            if expr == "In".toList then some (.sysfun expr)
            else if ctx.hasFunction expr then some (.sysfun expr)
            else
              match findValueInStore store expr with
              | some v => some (.ref v)
              | none => none

/-- Embedding of `ConvertTokens` (light_weight_datamodel.cc:1263-1276). -/
def convertTokens (ctx : LwdCtx) (store : JsonValue) :
    List (List Char) → Option (List Token)
  | [] => some []
  | s :: rest =>
    match tokenCreate ctx store s with
    | none => none
    | some t => (convertTokens ctx store rest).map (t :: ·)

/-! ## Substitution passes (light_weight_datamodel.cc:436-1276) -/

/-- Embedding of `IsValueSequence` (light_weight_datamodel.cc:784-809):
empty, or values separated by `,` operators (odd token count). -/
def isValueSequence : List Token → Bool
  | [] => true
  | [t] => t.isValue
  | t :: o :: rest =>
    t.isValue && o.opStr == ",".toList && !rest.isEmpty && isValueSequence rest

/-- The inner scan of `FindOuterMostParentheses`
(internal/utility.h:127-158) after the first opener was found: find the
matching closer, counting nested same-type pairs; `none` when the group is
never closed.  Returns the tokens inside the group, the closing token and
the tokens after it. -/
def closeScan (startM endM : Token → Bool) :
    Nat → List Token → List Token → Option (List Token × Token × List Token)
  | _, _, [] => none
  | count, inner, t :: rest =>
    if startM t then closeScan startM endM (count + 1) (inner ++ [t]) rest
    else if endM t then
      if count = 0 then some (inner, t, rest)
      else closeScan startM endM (count - 1) (inner ++ [t]) rest
    else closeScan startM endM count (inner ++ [t]) rest

/-- The decomposition produced by `FindOuterMostParentheses`: tokens before
the opener, the opener, the tokens inside, the closer, and the tokens after
it. -/
structure ParenSplit where
  pre : List Token
  openTok : Token
  inner : List Token
  closeTok : Token
  post : List Token

/-- `FindOuterMostParentheses` with the stateful matchers of
`SubstituteParentheses` (light_weight_datamodel.cc:826-869): before any
opener, either closer aborts the search (the count-below-zero branch);
the first opener (`(` or `[`) fixes the parenthesis type and only same-type
pairs are counted afterwards. -/
def findParensTyped (pre : List Token) : List Token → Option ParenSplit
  | [] => none
  | t :: rest =>
    if t.opStr == "(".toList || t.opStr == "[".toList then
      let closer := if t.opStr == "(".toList then ")".toList else "]".toList
      match closeScan (fun x => x.opStr == t.opStr)
          (fun x => x.opStr == closer) 0 [] rest with
      | none => none
      | some (inner, c, post) => some ⟨pre, t, inner, c, post⟩
    else if t.opStr == ")".toList || t.opStr == "]".toList then none
    else findParensTyped (pre ++ [t]) rest

/-- Embedding of `SubstituteParentheses`
(light_weight_datamodel.cc:815-932).  `suv` is `SubstituteUntilValue`,
passed explicitly to break the mutual recursion; `none` is the pass's
error flag.  A `(`-group whose content is already a value sequence is
skipped when a system function precedes it, a `[`-group always; otherwise
the content is evaluated recursively, an empty `[]` is an error, and `()`
not preceded by a system function is stripped. -/
def substituteParenthesesGo (suv : List Token → Option (List Token)) :
    Nat → List Token → List Token → Option (List Token)
  | 0, done, todo => some (done ++ todo)
  | fuel + 1, done, todo =>
    match findParensTyped [] todo with
    | none => some (done ++ todo)
    | some ⟨pre, opn, inner, cls, post⟩ =>
      let beforeSys := (((done ++ pre).getLast?).map Token.isSystemFunction
        ).getD false
      let isBracket := opn.opStr == "[".toList
      if isValueSequence inner && (isBracket || beforeSys) then
        substituteParenthesesGo suv fuel
          (done ++ pre ++ [opn] ++ inner ++ [cls]) post
      else if inner.isEmpty && isBracket then none
      else
        match (if inner.isEmpty then some inner else suv inner) with
        | none => none
        | some inner' =>
          if !isBracket && !beforeSys then
            substituteParenthesesGo suv fuel (done ++ pre ++ inner') post
          else
            substituteParenthesesGo suv fuel
              (done ++ pre ++ [opn] ++ inner' ++ [cls]) post

/-- Embedding of `SubstituteSystemFunctionCalls`
(light_weight_datamodel.cc:1019-1100).  `activeIds` models the runtime's
active state ids for the built-in `In`; a `none` runtime is the null
runtime pointer.  An unclosed call is an error; a non-value-sequence
argument list aborts the pass without the error flag but with the spliced
argument tokens dropped (the C++ splices them out before validating). -/
def subSysCallsGo (ctx : LwdCtx) (runtime : Option (List (List Char))) :
    Nat → List Token → List Token → Option (List Token)
  | 0, done, todo => some (done ++ todo)
  | _ + 1, done, [] => some done
  | fuel + 1, done, t1 :: todo =>
    match todo with
    | t2 :: rest =>
      if t1.isSystemFunction && t2.opStr == "(".toList then
        match closeScan (fun x => x.opStr == "(".toList)
            (fun x => x.opStr == ")".toList) 0 [] rest with
        | none => none
        | some (inner, cls, post) =>
          if !inner.isEmpty && !isValueSequence inner then
            some (done ++ [t1, t2, cls] ++ post)
          else
            let args := (inner.filter Token.isValue).map Token.val
            let result : Option JsonValue :=
              if t1.sysStr == "In".toList then
                match runtime, args with
                | some ids, [.str sid] => some (.bool (ids.contains sid))
                | _, _ => none
              else ctx.execute t1.sysStr args
            match result with
            | none => none
            | some v =>
              subSysCallsGo ctx runtime fuel (done ++ [.value v]) post
      else subSysCallsGo ctx runtime fuel (done ++ [t1]) todo
    | [] => some (done ++ [t1])

/-- Embedding of `SubstituteElementAccess`
(light_weight_datamodel.cc:936-1015): rewrite `value [ value ]` groups
where the first value is an object or array; `array["length"]` becomes an
integer literal value, other array accesses need an in-range integral
index, object accesses an existing member; references stay references.
The scan restarts at each result so chained accesses resolve. -/
def subElemGo : Nat → List Token → List Token → Option (List Token)
  | 0, done, todo => some (done ++ todo)
  | _ + 1, done, [] => some done
  | fuel + 1, done, tr :: todo =>
    match todo with
    | tb :: ti :: te :: rest =>
      if tr.isValue && (tr.val.isObject || tr.val.isArray) &&
          tb.opStr == "[".toList && ti.isValue && te.opStr == "]".toList then
        match tr.val with
        | .arr es =>
          if valueToString ti.val false == "length".toList then
            subElemGo fuel done (.value (.int es.length) :: rest)
          else if !ti.val.isIntegral || ti.val.asInt < 0 ||
              (es.length : Int) ≤ ti.val.asInt then none
          else
            match es.get? ti.val.asInt.toNat with
            | none => none
            | some e =>
              subElemGo fuel done
                ((if tr.isRef then .ref e else .value e) :: rest)
        | .obj fields =>
          match jsonGetMember fields (valueToString ti.val false) with
          | none => none
          | some e =>
            subElemGo fuel done
              ((if tr.isRef then .ref e else .value e) :: rest)
        | _ => none
      else subElemGo fuel (done ++ [tr]) todo
    | _ => subElemGo fuel (done ++ [tr]) todo

/-- Embedding of `SubUnaryOpMeta` (light_weight_datamodel.cc:706-753) on
the REVERSED token list: find `value, op` pairs (right-associatively),
skip when a value precedes the operator (binary minus disambiguation),
and restart from each result. -/
def subUnaryRevGo (opMatch : List Char → Bool)
    (opFn : Token → Token → Option Token) :
    Nat → List Token → Option (List Token)
  | 0, l => some l
  | _ + 1, [] => some []
  | fuel + 1, v :: todo =>
    match todo with
    | o :: rest =>
      if v.isValue && o.isOperator && opMatch o.opStr then
        match rest with
        | b :: _ =>
          if b.isValue then
            (subUnaryRevGo opMatch opFn fuel rest).map (fun r => v :: o :: r)
          else
            match opFn o v with
            | none => none
            | some res => subUnaryRevGo opMatch opFn fuel (res :: rest)
        | [] =>
          match opFn o v with
          | none => none
          | some res => subUnaryRevGo opMatch opFn fuel [res]
      else (subUnaryRevGo opMatch opFn fuel todo).map (v :: ·)
    | [] => some [v]

/-- `SubUnaryOpMeta` as a pass on the token list in source order. -/
def subUnaryOp (opMatch : List Char → Bool)
    (opFn : Token → Token → Option Token) (l : List Token) :
    Option (List Token) :=
  (subUnaryRevGo opMatch opFn (l.length + 1) l.reverse).map List.reverse

/-- Embedding of `SubInfixBinaryOpMeta` (light_weight_datamodel.cc:436-480):
find `value, op, value` triples left-to-right, apply the operation, restart
from the result (left associativity); an operation failure is the pass's
error. -/
def subInfixGo (opMatch : List Char → Bool)
    (opFn : Token → Token → Token → Option Token) :
    Nat → List Token → List Token → Option (List Token)
  | 0, done, todo => some (done ++ todo)
  | _ + 1, done, [] => some done
  | fuel + 1, done, a :: todo =>
    match todo with
    | o :: b :: rest =>
      if a.isValue && o.isOperator && opMatch o.opStr && b.isValue then
        match opFn o a b with
        | none => none
        | some r => subInfixGo opMatch opFn fuel done (r :: rest)
      else subInfixGo opMatch opFn fuel (done ++ [a]) todo
    | _ => subInfixGo opMatch opFn fuel (done ++ [a]) todo

/-- `SubInfixBinaryOpMeta` as a pass. -/
def subInfixOp (opMatch : List Char → Bool)
    (opFn : Token → Token → Token → Option Token) (l : List Token) :
    Option (List Token) :=
  subInfixGo opMatch opFn (l.length + 1) [] l

/-- Embedding of `SubstituteUntilValue`
(light_weight_datamodel.cc:1229-1260) with the substitution order of
`GetSubstituteMethods` (light_weight_datamodel.cc:1180-1226): parentheses,
system calls, element access, unary minus, logical not, multiplicative,
additive, relational, equality, and, or — each once, stopping at the first
error — then require a value sequence.  The fuel feeds the recursion into
parenthesized sub-expressions, which are strictly shorter. -/
def substituteUntilValue (ctx : LwdCtx)
    (runtime : Option (List (List Char))) :
    Nat → List Token → Option (List Token)
  | 0, _ => none
  | fuel + 1, expr => do
    let e1 ← substituteParenthesesGo (substituteUntilValue ctx runtime fuel)
      (expr.length + 1) [] expr
    let e2 ← subSysCallsGo ctx runtime (e1.length + 1) [] e1
    let e3 ← subElemGo (e2.length + 1) [] e2
    let e4 ← subUnaryOp (fun o => o == "-".toList) unaryMinusOperation e3
    let e5 ← subUnaryOp (fun o => o == "!".toList) logicalNotOperation e4
    let e6 ← subInfixOp (fun o => o == "*".toList || o == "/".toList)
      multiplicativeOperation e5
    let e7 ← subInfixOp (fun o => o == "+".toList || o == "-".toList)
      additiveOperation e6
    let e8 ← subInfixOp
      (fun o => o == "<".toList || o == "<=".toList ||
        o == ">".toList || o == ">=".toList) comparisonOperation e7
    let e9 ← subInfixOp (fun o => o == "==".toList || o == "!=".toList)
      comparisonOperation e8
    let e10 ← subInfixOp (fun o => o == "&&".toList) logicalAndOperation e9
    let e11 ← subInfixOp (fun o => o == "||".toList) logicalOrOperation e10
    if isValueSequence e11 then some e11 else none

/-- The tokenize-presubstitute-convert-substitute tail of
`ProcessExpression` (light_weight_datamodel.cc:1295-1317), requiring a
single final token. -/
def processExpressionTail (ctx : LwdCtx)
    (runtime : Option (List (List Char))) (store : JsonValue)
    (expr : List Char) : Option Token :=
  let strToks := presubstituteStringTokens store (tokenizeExpression expr)
  match convertTokens ctx store strToks with
  | none => none
  | some toks =>
    match substituteUntilValue ctx runtime (toks.length + 1) toks with
    | none => none
    | some res =>
      match res with
      | [t] => some t
      | _ => none

/-- Embedding of `ProcessExpression` (light_weight_datamodel.cc:1286-1318),
with `processExpressionTail` as its tokenize-and-substitute tail. -/
def processExpression (ctx : LwdCtx) (runtime : Option (List (List Char)))
    (store : JsonValue) (expression : List Char) : Option Token :=
  let expr := stripWSChars expression
  if expr.isEmpty then none
  else
    match tokenCreate ctx store expr with
    | some t =>
      if t.isValue then some t
      else processExpressionTail ctx runtime store expr
    | none => processExpressionTail ctx runtime store expr

/-! ## Location expressions and the datamodel API
(light_weight_datamodel.cc:1320-1717) -/

/-- The tail loop of `IsDotSeparatedPath`: each further piece must be
nonempty and no dot-prefix of the path may name a dispatcher function. -/
def dotPathGo (hasFunction : List Char → Bool) (acc : List Char) :
    List (List Char) → Bool
  | [] => true
  | p :: rest =>
    if p.isEmpty then false
    else
      let acc' := acc ++ '.' :: p
      if hasFunction acc' then false else dotPathGo hasFunction acc' rest

/-- Embedding of `IsDotSeparatedPath` (light_weight_datamodel.cc:1323-1349):
nonempty, `"."` accepted, split on dots without skipping empties, the first
piece and every dot-prefix must not be a dispatcher function, later pieces
must be nonempty. -/
def isDotSeparatedPath (hasFunction : List Char → Bool)
    (path : List Char) : Bool :=
  if path.isEmpty then false
  else if path == ".".toList then true
  else
    match splitDotsAll path with
    | [] => false
    | p0 :: rest =>
      if hasFunction p0 then false else dotPathGo hasFunction p0 rest

/-- Embedding of `LightWeightDatamodel::IsDefined`
(light_weight_datamodel.cc:1494-1498): the expression must evaluate to a
store reference. -/
def lwdIsDefined (ctx : LwdCtx) (runtime : Option (List (List Char)))
    (store : JsonValue) (location : List Char) : Bool :=
  match processExpression ctx runtime store location with
  | some t => t.isRef
  | none => false

/-- Modelled from the json library: `Json::Path::make` — create the nodes
along the path, turning nulls into objects or arrays as the next argument
requires; `none` stands for the library assertion that fires on a non-null
node of the wrong kind (unreachable in the verified statements). -/
def pathMake : JsonValue → List PathArg → Option JsonValue
  | store, [] => some store
  | .null, .key k :: rest =>
    (pathMake .null rest).map fun sub => .obj [(k, sub)]
  | .obj fields, .key k :: rest =>
    (pathMake ((jsonGetMember fields k).getD .null) rest).map
      fun cur => .obj (jsonSetMember fields k cur)
  | .null, .index i :: rest =>
    (pathMake .null rest).map fun sub => .arr (jsonSetIndex [] i sub)
  | .arr es, .index i :: rest =>
    (pathMake ((es.get? i).getD .null) rest).map
      fun cur => .arr (jsonSetIndex es i cur)
  | _, _ => none

/-- Write `v` at an existing `path` of the store, with the
member-inserting / array-growing `Json::Value::operator[]` semantics along
the way; `none` when a path step meets a node of the wrong kind
(unreachable in the verified statements: the location walk validates every
step). -/
def setAtPath : JsonValue → List PathArg → JsonValue → Option JsonValue
  | _, [], v => some v
  | .obj fields, .key k :: rest, v =>
    (setAtPath ((jsonGetMember fields k).getD .null) rest v).map
      fun cur => .obj (jsonSetMember fields k cur)
  | .null, .key k :: rest, v =>
    (setAtPath .null rest v).map fun sub => .obj [(k, sub)]
  | .arr es, .index i :: rest, v =>
    (setAtPath ((es.get? i).getD .null) rest v).map
      fun cur => .arr (jsonSetIndex es i cur)
  | .null, .index i :: rest, v =>
    (setAtPath .null rest v).map fun sub => .arr (jsonSetIndex [] i sub)
  | _, _, _ => none

/-- The token-group walk of `ProcessLocationExpression`
(light_weight_datamodel.cc:1411-1463): each `[ key ]` group descends,
creating an object or array when the current location is new; on failure
the store keeps the mutations already made (the C++ mutates its store in
place and returns false). -/
def locWalk (store : JsonValue) (path : List PathArg) (isNew : Bool) :
    List Token → JsonValue × Option (List PathArg)
  | [] => (store, some path)
  | tb :: tf :: te :: rest =>
    if !(tb.isOperator && tb.opStr == "[".toList) then (store, none)
    else if !tf.isValue then (store, none)
    else if !(te.isOperator && te.opStr == "]".toList) then (store, none)
    else
      match tf.val with
      | .str key =>
        let store1 := if isNew then (setAtPath store path (.obj [])).getD store
          else store
        match pathResolve store1 path with
        | some (.obj fields) =>
          let isNew' := !jsonIsMember fields key
          let store2 := if isNew' then
              (setAtPath store1 (path ++ [.key key]) .null).getD store1
            else store1
          locWalk store2 (path ++ [.key key]) isNew' rest
        | _ => (store1, none)
      | v =>
        if v.isIntegral then
          let index := v.asInt
          if index < 0 then (store, none)
          else
            let store1 := if isNew then
                (setAtPath store path (.arr [])).getD store
              else store
            match pathResolve store1 path with
            | some (.arr es) =>
              let isNew' := (es.length : Int) ≤ index
              let store2 := if isNew' then
                  (setAtPath store1 (path ++ [.index index.toNat]) .null
                    ).getD store1
                else store1
              locWalk store2 (path ++ [.index index.toNat]) isNew' rest
            | _ => (store1, none)
        else (store, none)
  | _ => (store, none)

/-- Embedding of `ProcessLocationExpression`
(light_weight_datamodel.cc:1352-1466): tokenize, presubstitute, require a
dot-separated-path first token, expand its dot segments into bracketed
accesses, create the root via `Json::Path::make` (a store mutation that
persists even when a later step fails), convert, substitute parentheses,
require `root [k1] ... [kN]` shape and walk the groups.  Returns the
(possibly mutated) store and the located path on success. -/
def processLocationExpression (ctx : LwdCtx)
    (runtime : Option (List (List Char))) (store0 : JsonValue)
    (expression : List Char) : JsonValue × Option (List PathArg) :=
  let expr := stripWSChars expression
  if expr.isEmpty then (store0, none)
  else
    match presubstituteStringTokens store0 (tokenizeExpression expr) with
    | [] => (store0, none)
    | front :: restToks =>
      if !isDotSeparatedPath ctx.hasFunction front then (store0, none)
      else
        match splitDotsSkipEmpty front with
        | [] => (store0, none)
        | root :: subs =>
          let strToks := root :: (subs.foldr
            (fun seg acc =>
              "[".toList :: quoteChars seg :: "]".toList :: acc) []) ++
            restToks
          let rootPath := parseJsonPath root
          let isNew0 := match pathResolve store0 rootPath with
            | none => true
            | some v => isUndefinedSentinel v
          match pathMake store0 rootPath with
          | none => (store0, none)
          | some store1 =>
            match convertTokens ctx store1 strToks with
            | none => (store1, none)
            | some toks =>
              match substituteParenthesesGo
                  (substituteUntilValue ctx runtime (toks.length + 1))
                  (toks.length + 1) [] toks with
              | none => (store1, none)
              | some toks' =>
                if (toks'.length - 1) % 3 != 0 then (store1, none)
                else
                  match toks' with
                  | [] => (store1, none)
                  | _ :: groups => locWalk store1 rootPath isNew0 groups

/-- Embedding of `LightWeightDatamodel::DeclareAndAssignJson`
(light_weight_datamodel.cc:1702-1717): locate (destructively creating the
path) and write the value; the flag is the C++ return value and the store
is the datamodel's store afterwards. -/
def lwdDeclareAndAssignJson (ctx : LwdCtx)
    (runtime : Option (List (List Char))) (store : JsonValue)
    (location : List Char) (value : JsonValue) : Bool × JsonValue :=
  match processLocationExpression ctx runtime store location with
  | (store', none) => (false, store')
  | (store', some path) =>
    match setAtPath store' path value with
    | some store'' => (true, store'')
    | none => (false, store')

/-- Embedding of `LightWeightDatamodel::Declare`
(light_weight_datamodel.cc:1500-1505). -/
def lwdDeclare (ctx : LwdCtx) (runtime : Option (List (List Char)))
    (store : JsonValue) (location : List Char) : Bool × JsonValue :=
  if lwdIsDefined ctx runtime store location || ctx.hasFunction location then
    (false, store)
  else lwdDeclareAndAssignJson ctx runtime store location .null

/-- The prefix before the last dot: `substr(0, find_last_of('.'))`, the
whole string when there is no dot. -/
def lastDotPrefix (t : List Char) : List Char :=
  let revAfter := t.reverse.takeWhile (· ≠ '.')
  if revAfter.length = t.length then t
  else t.take (t.length - revAfter.length - 1)

/-- Embedding of `LightWeightDatamodel::IsAssignable`
(light_weight_datamodel.cc:1563-1625): defined locations are assignable; a
single undefined path token needs an object reference at its parent
dot-prefix; otherwise the tokens must form `root [k1] ... [kN]` whose
parent part evaluates to an array or object reference with an index
respectively string key. -/
def lwdIsAssignable (ctx : LwdCtx) (runtime : Option (List (List Char)))
    (store : JsonValue) (location : List Char) : Bool :=
  if lwdIsDefined ctx runtime store location then true
  else
    match presubstituteStringTokens store (tokenizeExpression location) with
    | [t] =>
      match tokenCreate ctx store (lastDotPrefix t) with
      | some tok => tok.isRef && tok.val.isObject
      | none => false
    | strToks =>
      match convertTokens ctx store strToks with
      | none => false
      | some toks =>
        match substituteParenthesesGo
            (substituteUntilValue ctx runtime (toks.length + 1))
            (toks.length + 1) [] toks with
        | none => false
        | some toks' =>
          if (toks'.length - 1) % 3 != 0 then false
          else if toks'.length < 4 then false
          else
            let parentToks := toks'.take (toks'.length - 3)
            match substituteUntilValue ctx runtime (parentToks.length + 1)
                parentToks with
            | none => false
            | some ps =>
              match ps with
              | [] => false
              | p :: _ =>
                if !p.isRef then false
                else if !p.val.isArray && !p.val.isObject then false
                else
                  match toks'.drop (toks'.length - 3) with
                  | [_, keyTok, _] =>
                    if !keyTok.isValue then false
                    else if p.val.isArray && !keyTok.val.isIntegral then false
                    else if p.val.isObject && !keyTok.val.isString then false
                    else true
                  | _ => false

/-- Embedding of `LightWeightDatamodel::AssignJson`
(light_weight_datamodel.cc:1693-1700): assignability is checked before the
destructive location processing. -/
def lwdAssignJson (ctx : LwdCtx) (runtime : Option (List (List Char)))
    (store : JsonValue) (location : List Char) (value : JsonValue) :
    Bool × JsonValue :=
  if !lwdIsAssignable ctx runtime store location then (false, store)
  else lwdDeclareAndAssignJson ctx runtime store location value

/-- Embedding of `LightWeightDatamodel::AssignExpression`
(light_weight_datamodel.cc:1508-1516): an empty expression assigns null,
otherwise the expression value (`EvaluateJsonExpression`). -/
def lwdAssignExpression (ctx : LwdCtx)
    (runtime : Option (List (List Char))) (store : JsonValue)
    (location : List Char) (expr : List Char) : Bool × JsonValue :=
  let value : Option JsonValue :=
    if expr.isEmpty then some .null
    else
      match processExpression ctx runtime store expr with
      | some t => some t.val
      | none => none
  match value with
  | none => (false, store)
  | some v => lwdAssignJson ctx runtime store location v

/-- Embedding of `LightWeightDatamodel::AssignString`
(light_weight_datamodel.cc:1519-1522). -/
def lwdAssignString (ctx : LwdCtx) (runtime : Option (List (List Char)))
    (store : JsonValue) (location : List Char) (str : List Char) :
    Bool × JsonValue :=
  lwdAssignExpression ctx runtime store location (quoteChars str)

/-- Embedding of `LightWeightDatamodel::EvaluateIterator`
(light_weight_datamodel.cc:1671-1690): only array values; yields the
element list.  The C++ reference iterator aliases the store; the snapshot
here agrees whenever the loop does not write into the iterated array,
which holds in every verified statement. -/
def lwdEvaluateIterator (ctx : LwdCtx)
    (runtime : Option (List (List Char))) (store : JsonValue)
    (location : List Char) : Option (List JsonValue) :=
  match processExpression ctx runtime store location with
  | some t =>
    if t.isValue then
      match t.val with
      | .arr es => some es
      | _ => none
    else none
  | none => none

/-! ## ForEach (internal/model/for_each.cc:34-86) -/

/-- The statically configured fields of a `ForEach` executable. -/
structure ForEachData where
  array : List Char
  item : List Char
  index : List Char

/-- `BaseArrayIterator::GetValue`
(light_weight_datamodel.h:173-179): the fast-writer string of the element,
whitespace-stripped. -/
def iterGetValue (v : JsonValue) : List Char :=
  stripWSChars (fastWrite v)

/-- The loop of `ForEach::Execute` (for_each.cc:59-86): assign the item,
assign the index when given, run the body; stop with false on any failure.
The state is a `RuntimeState` over the LWD store; `i` is the iterator
index. -/
def forEachLoop (ctx : LwdCtx) (runtime : Option (List (List Char)))
    (fe : ForEachData)
    (body : RuntimeState JsonValue → Bool × RuntimeState JsonValue) :
    Nat → List JsonValue → RuntimeState JsonValue →
    Bool × RuntimeState JsonValue
  | _, [], rt => (true, rt)
  | i, e :: rest, rt =>
    match lwdAssignExpression ctx runtime rt.datamodel fe.item
        (iterGetValue e) with
    | (false, dm') =>
      (false, enqueueExecutionError { rt with datamodel := dm' }
        ("'ForEach' unable to assign item variable '" ++
          String.mk fe.item ++ "' with value: " ++
          String.mk (iterGetValue e)))
    | (true, dm') =>
      let rt1 := { rt with datamodel := dm' }
      let afterIndex : Bool × RuntimeState JsonValue :=
        if fe.index.isEmpty then (true, rt1)
        else
          match lwdAssignExpression ctx runtime rt1.datamodel fe.index
              (intToChars i) with
          | (false, dm2) =>
            (false, enqueueExecutionError { rt1 with datamodel := dm2 }
              ("'ForEach' unable to assign index variable '" ++
                String.mk fe.index ++ "' with value: " ++
                String.mk (intToChars i)))
          | (true, dm2) => (true, { rt1 with datamodel := dm2 })
      match afterIndex with
      | (false, rt2) => (false, rt2)
      | (true, rt2) =>
        match body rt2 with
        | (false, rt3) => (false, rt3)
        | (true, rt3) => forEachLoop ctx runtime fe body (i + 1) rest rt3

/-- The index-variable declaration step and loop entry of
`ForEach::Execute` (for_each.cc:51-86): declare the index variable when
given and undefined, then run the loop. -/
def forEachAfterItem (ctx : LwdCtx) (runtime : Option (List (List Char)))
    (fe : ForEachData)
    (body : RuntimeState JsonValue → Bool × RuntimeState JsonValue)
    (elems : List JsonValue) (rt : RuntimeState JsonValue) :
    Bool × RuntimeState JsonValue :=
  if !fe.index.isEmpty &&
      !lwdIsDefined ctx runtime rt.datamodel fe.index then
    match lwdDeclare ctx runtime rt.datamodel fe.index with
    | (false, dm') =>
      (false, enqueueExecutionError { rt with datamodel := dm' }
        ("'ForEach' unable to declare index variable at: " ++
          String.mk fe.index))
    | (true, dm') =>
      forEachLoop ctx runtime fe body 0 elems { rt with datamodel := dm' }
  else forEachLoop ctx runtime fe body 0 elems rt

/-- Embedding of `ForEach::Execute` (for_each.cc:34-86): get the iterator,
declare the item variable when undefined, declare the index variable when
given and undefined (each failure enqueues an execution error), then run
the loop.  `body` is the executable content's `Execute`; a null body is
the constantly-true function. -/
def forEachExecute (ctx : LwdCtx) (runtime : Option (List (List Char)))
    (fe : ForEachData)
    (body : RuntimeState JsonValue → Bool × RuntimeState JsonValue)
    (rt : RuntimeState JsonValue) : Bool × RuntimeState JsonValue :=
  match lwdEvaluateIterator ctx runtime rt.datamodel fe.array with
  | none =>
    (false, enqueueExecutionError rt
      ("'ForEach' unable to get iterator for collection: " ++
        String.mk fe.array))
  | some elems =>
    if !lwdIsDefined ctx runtime rt.datamodel fe.item then
      match lwdDeclare ctx runtime rt.datamodel fe.item with
      | (false, dm') =>
        (false, enqueueExecutionError { rt with datamodel := dm' }
          ("'ForEach' unable to declare item variable at: " ++
            String.mk fe.item))
      | (true, dm') =>
        forEachAfterItem ctx runtime fe body elems
          { rt with datamodel := dm' }
    else forEachAfterItem ctx runtime fe body elems rt

/-! ## Identifier dot-paths (the location class of the amended C6) -/

/-- ASCII identifier head characters: letters and underscore. -/
def identStartChars : List Char :=
  "abcdefghijklmnopqrstuvwxyzABCDEFGHIJKLMNOPQRSTUVWXYZ_".toList

/-- ASCII identifier characters: letters, underscore and digits. -/
def identTailChars : List Char :=
  identStartChars ++ "0123456789".toList

/-- A plain identifier segment: nonempty, a letter or underscore first,
letters, digits and underscores after. -/
def isIdentSeg (s : List Char) : Bool :=
  match s with
  | [] => false
  | c :: rest => identStartChars.contains c && rest.all identTailChars.contains

/-- Join path segments with dots. -/
def dotJoin : List (List Char) → List Char
  | [] => []
  | [s] => s
  | s :: rest => s ++ '.' :: dotJoin rest

/-- The strings `Token::Create` lexes as a literal or as the built-in `In`
even though they are shaped like identifier paths: the JSON keywords, `In`,
and the case-insensitive floating-point keywords of `absl::SimpleAtod`. -/
def isKeywordLoc (loc : List Char) : Bool :=
  loc == "null".toList || loc == "true".toList || loc == "false".toList ||
  loc == "In".toList || lowerEqKeyword loc "inf".toList ||
  lowerEqKeyword loc "infinity".toList || lowerEqKeyword loc "nan".toList

/-- The token form `[ "seg" ] [ "seg" ] ...` that
`ProcessLocationExpression` builds from the dot segments after the root. -/
def groupToks (subs : List (List Char)) : List Token :=
  subs.foldr (fun seg acc =>
    .op "[".toList :: .value (.str seg) :: .op "]".toList :: acc) []

/-! ## Concrete fixtures used by witness theorems -/

/-- A datamodel context with no dispatcher functions and a JSON reader
that accepts nothing (no verified expression contains a JSON literal). -/
def ctxNoFun : LwdCtx where
  hasFunction := fun _ => false
  execute := fun _ _ => none
  jsonParse := fun _ => none

/-- A store holding an array under the location `arr`. -/
def storeC8 (es : List JsonValue) : JsonValue :=
  .obj [("arr".toList, .arr es)]

/-- A concrete runtime used by witness theorems. -/
def rtFix : RuntimeState Unit :=
  { running := true, activeStates := [1],
    internalQueue := [("a", "b"), ("c", "d")], datamodel := () }

/-- A concrete state graph used by witness theorems: two independent top-level
states, no compound states. -/
def gFix : StateGraph :=
  { bound := 3, parent := fun _ => none, compound := fun _ => false }

/-- A concrete transition with source state 2 and no targets. -/
def tFixNoTargets : Transition :=
  { source := some 2, targets := [], internal := false }

/-- A concrete explicit self-transition on state 2. -/
def tFixSelf : Transition :=
  { source := some 2, targets := [2], internal := false }

/-- Executor collaborators where every selection is empty and every
assignment succeeds. -/
def envFix : ExecutorEnv Unit :=
  { eventlessTransitions := fun _ => []
    transitionsForEvent := fun _ _ => []
    assignString := fun dm _ _ => some dm
    assignExpression := fun dm _ _ => some dm
    microStep := fun rt _ => rt
    shutdown := fun rt => rt }

/-- A running runtime whose queue holds one unhandled error event. -/
def rtErrFix : RuntimeState Unit :=
  { running := true, activeStates := [0],
    internalQueue := [("error.execution", "")], datamodel := () }

/-- Executor collaborators for the C3 counterexample: the event `go` fires a
transition, and every microstep moves the configuration to state 99. -/
def envCx : ExecutorEnv Unit :=
  { eventlessTransitions := fun _ => []
    transitionsForEvent := fun _ e => if e = "go" then [tFixNoTargets] else []
    assignString := fun dm _ _ => some dm
    assignExpression := fun dm _ _ => some dm
    microStep := fun rt _ => { rt with activeStates := [99] }
    shutdown := fun rt => rt }

/-- A running runtime that dequeues the unhandled event `errorx` (which does
start with the string `error` but is not an error event for `IsErrorEvent`)
and then the handled event `go`. -/
def rtCxC3 : RuntimeState Unit :=
  { running := true, activeStates := [0],
    internalQueue := [("errorx", ""), ("go", "")], datamodel := () }

/-- Executor collaborators with an always-enabled eventless transition whose
microstep keeps the chart running (used by the C4 witness). -/
def envLoopFix : ExecutorEnv Unit :=
  { eventlessTransitions := fun _ => [tFixSelf]
    transitionsForEvent := fun _ _ => []
    assignString := fun dm _ _ => some dm
    assignExpression := fun dm _ _ => some dm
    microStep := fun rt _ => rt
    shutdown := fun rt => rt }

/-- A running runtime with an empty queue (used by the C4 witness). -/
def rtRunFix : RuntimeState Unit :=
  { running := true, activeStates := [2], internalQueue := [], datamodel := () }

/-- State graph for the C7 witness: state 2 is a child of top-level state 1. -/
def gSerFix : StateGraph :=
  { bound := 3, parent := fun n => if n = 2 then some 1 else none,
    compound := fun _ => false }

/-- State ids for the C7 witness. -/
def idsSerFix : Nat → String :=
  fun n => if n = 1 then "a" else if n = 2 then "b" else "?"

/-- A quiescent running runtime with states 1 and 2 active (C7 witness). -/
def rtSerFix : RuntimeState Unit :=
  { running := true, activeStates := [1, 2], internalQueue := [],
    datamodel := () }

/-- The same runtime with a pending internal event (C7 witness, refusal). -/
def rtSerPendingFix : RuntimeState Unit :=
  { running := true, activeStates := [1, 2], internalQueue := [("e", "")],
    datamodel := () }

/-! # Theorems -/

/-! ## Helper lemmas -/

/-- No state is a descendant of itself (the equality short-circuit in
`IsDescendant`). -/
theorem isDescendant_self (g : StateGraph) (s : Nat) :
    isDescendant g (some s) (some s) = false := by
  simp [isDescendant]

/-- One descriptor matches iff it is the wildcard, equals the event name, or
followed by a dot is a prefix of the event name. -/
theorem descriptorMatches_iff (e d : List Char) :
    descriptorMatches e d = true ↔
      d = ['*'] ∨ e = d ∨ (d ++ ['.']) <+: e := by
  unfold descriptorMatches
  simp only [Bool.or_eq_true, Bool.and_eq_true, beq_iff_eq,
    List.isPrefixOf_iff_prefix]
  constructor
  · rintro (h | ⟨⟨t, rfl⟩, h2⟩)
    · exact Or.inl h
    · rcases h2 with hlen | hdot
      · refine Or.inr (Or.inl ?_)
        have ht : t = [] := by
          have h3 := hlen
          simp at h3
          exact h3
        simp [ht]
      · refine Or.inr (Or.inr ?_)
        rw [List.getElem?_append_right (le_refl d.length)] at hdot
        simp at hdot
        cases t with
        | nil => simp at hdot
        | cons c t' =>
          simp at hdot
          subst hdot
          exact ⟨t', by simp⟩
  · rintro (h | h | ⟨t, ht⟩)
    · exact Or.inl h
    · subst h
      exact Or.inr ⟨List.prefix_refl _, Or.inl rfl⟩
    · subst ht
      refine Or.inr ⟨⟨'.' :: t, by simp⟩, Or.inr ?_⟩
      have hre : (d ++ ['.']) ++ t = d ++ '.' :: t := by simp
      rw [hre, List.getElem?_append_right (le_refl d.length)]
      simp

/-- If the head state of the list given to `FindLeastCommonCompoundAncestor`
also appears in the tail, the head is a descendant of the returned ancestor
(or of the root, if none is found). -/
theorem findLCCA_cons_isDesc (g : StateGraph) (head : Nat) (tail : List Nat)
    (hmem : head ∈ tail) :
    isDescendant g (some head) (findLCCA g (head :: tail)) = true := by
  show isDescendant g (some head)
    (((getProperAncestors g head none).filter g.compound).find?
      (fun anc => tail.all fun s => isDescendant g (some s) (some anc))) = true
  cases hf : ((getProperAncestors g head none).filter g.compound).find?
      (fun anc => tail.all fun s => isDescendant g (some s) (some anc)) with
  | none => rfl
  | some anc =>
    have hp := List.find?_some hf
    exact (List.all_eq_true.mp hp) head hmem

/-! ## Claim theorems -/

/-- Claim C1: a transition with an empty target list has its source as its
transition domain, and the exit set computed for it never contains the source
(every exited state is an active proper descendant of the source); an explicit
self-transition whose target list contains its (active) source does exit the
source. -/
theorem claim_C1 (g : StateGraph) (active : List Nat) (t t' : Transition)
    (src : Nat)
    (hsrc : t.source = some src) (htgt : t.targets = [])
    (hsrc' : t'.source = some src) (hmem : src ∈ t'.targets)
    (hact : src ∈ active) :
    getTransitionDomain g t = some src ∧
    src ∉ computeExitSet g active [t] ∧
    (∀ s ∈ computeExitSet g active [t],
      s ∈ active ∧ isDescendant g (some s) (some src) = true) ∧
    src ∈ computeExitSet g active [t'] := by
  have h1 : getTransitionDomain g t = some src := by
    unfold getTransitionDomain
    rw [htgt]
    simp [hsrc]
  have hne : t'.targets.isEmpty = false := by
    cases h : t'.targets with
    | nil => rw [h] at hmem; cases hmem
    | cons a l => simp
  have hdom : getTransitionDomain g t' = findLCCA g (src :: t'.targets) := by
    have hall : (t'.targets.all fun s => isDescendant g (some s) (some src))
        = false := by
      rw [List.all_eq_false]
      exact ⟨src, hmem, by simp [isDescendant_self]⟩
    unfold getTransitionDomain
    rw [hne, hsrc']
    simp [hall]
  have hdom' : isDescendant g (some src) (getTransitionDomain g t') = true := by
    rw [hdom]
    exact findLCCA_cons_isDesc g src t'.targets hmem
  refine ⟨h1, ?_, ?_, ?_⟩
  · simp [computeExitSet, List.mem_filter, h1, isDescendant_self]
  · intro s hs
    rw [computeExitSet, List.mem_filter] at hs
    refine ⟨hs.1, ?_⟩
    have h2 := hs.2
    simp only [List.any_cons, List.any_nil, Bool.or_false, h1] at h2
    exact h2
  · rw [computeExitSet, List.mem_filter]
    exact ⟨hact, by simp [hdom']⟩

/-- Witness for C1 at a concrete graph: state 2 with an implicit (no-target)
transition is not exited, with an explicit self-transition it is. -/
theorem claim_C1_witness :
    getTransitionDomain gFix tFixNoTargets = some 2 ∧
    2 ∉ computeExitSet gFix [2] [tFixNoTargets] ∧
    2 ∈ computeExitSet gFix [2] [tFixSelf] :=
  have h := claim_C1 gFix [2] tFixNoTargets tFixSelf 2 rfl rfl rfl
    (by decide) (by decide)
  ⟨h.1, h.2.1, h.2.2.2⟩

/-- Claim C2: a fired event name matches a descriptor list iff some descriptor
is the wildcard, equals the event name, or is a dot-delimited prefix of it (in
particular, a plain string prefix that does not stop at a dot boundary does
not match, since neither disjunct then holds). -/
theorem claim_C2 (e : List Char) (L : List (List Char)) :
    eventMatches e L = true ↔
      ∃ d ∈ L, d = ['*'] ∨ e = d ∨ (d ++ ['.']) <+: e := by
  unfold eventMatches
  rw [List.any_eq_true]
  constructor
  · rintro ⟨d, hd, hm⟩
    exact ⟨d, hd, (descriptorMatches_iff e d).mp hm⟩
  · rintro ⟨d, hd, hm⟩
    exact ⟨d, hd, (descriptorMatches_iff e d).mpr hm⟩

/-- Claim C10: dequeueing from an empty internal queue returns two empty
strings and leaves the runtime unchanged; otherwise the front (FIFO) element
is returned and removed; enqueueing appends at the back. -/
theorem claim_C10 {DM : Type} (rt : RuntimeState DM) :
    (rt.internalQueue = [] → dequeueInternalEvent rt = (("", ""), rt)) ∧
    (∀ e rest, rt.internalQueue = e :: rest →
      dequeueInternalEvent rt = (e, { rt with internalQueue := rest })) ∧
    (∀ event payload, enqueueInternalEvent rt event payload =
      { rt with internalQueue := rt.internalQueue ++ [(event, payload)] }) := by
  refine ⟨?_, ?_, ?_⟩
  · intro h
    unfold dequeueInternalEvent
    rw [h]
  · intro e rest h
    unfold dequeueInternalEvent
    rw [h]
  · intro event payload
    rfl

/-- Witness for C10 on a concrete two-element queue. -/
theorem claim_C10_witness :
    dequeueInternalEvent rtFix =
      (("a", "b"), { rtFix with internalQueue := [("c", "d")] }) :=
  (claim_C10 rtFix).2.1 ("a", "b") [("c", "d")] rfl

/-! ## Executor claims -/

/-- Both components of `AssignStringOrEnqueueError` leave the active-state
set and the running flag untouched. -/
theorem assignStringOrEnqueueError_state {DM : Type} (env : ExecutorEnv DM)
    (rt : RuntimeState DM) (id s : String) :
    ((assignStringOrEnqueueError env rt id s).1).activeStates
        = rt.activeStates ∧
    ((assignStringOrEnqueueError env rt id s).1).running = rt.running := by
  unfold assignStringOrEnqueueError
  cases env.assignString rt.datamodel id s with
  | none => simp [enqueueExecutionError, enqueueInternalEvent]
  | some dm => simp

/-- Both components of `AssignExpressionOrEnqueueError` leave the
active-state set and the running flag untouched. -/
theorem assignExpressionOrEnqueueError_state {DM : Type} (env : ExecutorEnv DM)
    (rt : RuntimeState DM) (id s : String) :
    ((assignExpressionOrEnqueueError env rt id s).1).activeStates
        = rt.activeStates ∧
    ((assignExpressionOrEnqueueError env rt id s).1).running = rt.running := by
  unfold assignExpressionOrEnqueueError
  cases env.assignExpression rt.datamodel id s with
  | none => simp [enqueueExecutionError, enqueueInternalEvent]
  | some dm => simp

/-- `AssignEventData` only touches the datamodel and the internal queue:
active states and the running flag are preserved. -/
theorem assignEventData_state {DM : Type} (env : ExecutorEnv DM)
    (rt : RuntimeState DM) (e p : String) :
    (assignEventData env rt e p).activeStates = rt.activeStates ∧
    (assignEventData env rt e p).running = rt.running := by
  unfold assignEventData
  have h1 := assignStringOrEnqueueError_state env rt "_event.name" e
  cases h : assignStringOrEnqueueError env rt "_event.name" e with
  | mk rt1 ok =>
    rw [h] at h1
    match ok with
    | false => simpa using h1
    | true =>
      by_cases hp : p.isEmpty
      · simpa [hp] using h1
      · have h2 := assignExpressionOrEnqueueError_state env rt1 "_event.data" p
        simp only at h1
        simp [hp]
        exact ⟨h2.1.trans h1.1, h2.2.trans h1.2⟩

/-- Claim C3 (amended): during `ExecuteUntilStable`, if no eventless
transitions are enabled and a dequeued internal event whose name is `error`
or starts with `error.` selects no transitions, the macrostep terminates at
that point — whatever fuel remains — and the active-state configuration is
the one from that moment. -/
theorem claim_C3 {DM : Type} (env : ExecutorEnv DM) (rt rt1 : RuntimeState DM)
    (e p : String) (rest : List (String × String))
    (hrun : rt.running = true)
    (hev : env.eventlessTransitions rt = [])
    (hq : rt.internalQueue = (e, p) :: rest)
    (herr : e = "error" ∨ "error.".toList.isPrefixOf e.toList = true)
    (hrt1 : rt1 = assignEventData env { rt with internalQueue := rest } e p)
    (hsel : env.transitionsForEvent rt1 e = []) :
    (∀ n, macroLoop env (n + 1) rt = rt1) ∧
    executeUntilStable env rt = rt1 ∧
    rt1.activeStates = rt.activeStates ∧ rt1.running = true := by
  have herrB : isErrorEvent e = true := by
    unfold isErrorEvent
    rcases herr with h | h
    · simp [h]
    · rw [h]; simp
  obtain ⟨run, act, q, dm⟩ := rt
  simp only at hrun hev hq hrt1 ⊢
  subst hrun
  subst hq
  have hstate := assignEventData_state env
    (⟨true, act, rest, dm⟩ : RuntimeState DM) e p
  rw [← hrt1] at hstate
  simp only at hstate
  have hstep : ∀ n, macroLoop env (n + 1)
      (⟨true, act, (e, p) :: rest, dm⟩ : RuntimeState DM) = rt1 := by
    intro n
    simp only [macroLoop, hev, List.isEmpty_nil, Bool.not_true, if_false,
      ← hrt1, hsel, herrB, Bool.and_self, if_true, Bool.false_eq_true]
  refine ⟨hstep, ?_, hstate.1, hstate.2⟩
  have h1000 : macroLoop env maxNumMicrosteps
      (⟨true, act, (e, p) :: rest, dm⟩ : RuntimeState DM) = rt1 := by
    have h := hstep 999
    simpa [maxNumMicrosteps] using h
  unfold executeUntilStable
  rw [h1000, hstate.2]
  simp

/-- Witness for C3 at a concrete runtime holding one unhandled
`error.execution` event. -/
theorem claim_C3_witness :
    executeUntilStable envFix rtErrFix =
      assignEventData envFix { rtErrFix with internalQueue := [] }
        "error.execution" "" ∧
    (assignEventData envFix { rtErrFix with internalQueue := [] }
        "error.execution" "").activeStates = rtErrFix.activeStates :=
  have h := claim_C3 envFix rtErrFix
    (assignEventData envFix { rtErrFix with internalQueue := [] }
      "error.execution" "")
    "error.execution" "" [] rfl rfl rfl (Or.inr (by decide)) rfl rfl
  ⟨h.2.1, h.2.2.1⟩

/-- Counterexample to C3 as literally stated: the event `errorx` starts with
the string `error` and is unhandled, yet the macrostep does not terminate
there — a later microstep (for the queued event `go`) still changes the
active configuration, because `IsErrorEvent` only accepts `error` itself or
names starting with `error.`. -/
theorem claim_C3_counterexample :
    "error".toList.isPrefixOf "errorx".toList = true ∧
    envCx.eventlessTransitions rtCxC3 = [] ∧
    rtCxC3.internalQueue.head? = some ("errorx", "") ∧
    envCx.transitionsForEvent
      (assignEventData envCx { rtCxC3 with internalQueue := [("go", "")] }
        "errorx" "") "errorx" = [] ∧
    (executeUntilStable envCx rtCxC3).activeStates ≠ rtCxC3.activeStates := by
  decide

/-- Claim C4: with an always-enabled eventless transition set, every
macrostep performs exactly its fuel's worth of microsteps; the default bound
is `max_num_microsteps = 1000`, after which `ExecuteUntilStable` stops and
leaves the runtime at the last reached configuration (no shutdown occurs
since the chart is still running). -/
theorem claim_C4 {DM : Type} (env : ExecutorEnv DM) (rt : RuntimeState DM)
    (hrun : rt.running = true)
    (hev : ∀ r : RuntimeState DM, (env.eventlessTransitions r).isEmpty = false)
    (hms : ∀ (r : RuntimeState DM) (ts : List Transition),
      r.running = true → (env.microStep r ts).running = true) :
    (∀ (n : Nat) (r : RuntimeState DM), r.running = true →
      macroLoop env n r = (eventlessMicroStep env)^[n] r) ∧
    executeUntilStable env rt = (eventlessMicroStep env)^[maxNumMicrosteps] rt ∧
    maxNumMicrosteps = 1000 := by
  have hiter : ∀ (n : Nat) (r : RuntimeState DM), r.running = true →
      ((eventlessMicroStep env)^[n] r).running = true := by
    intro n
    induction n with
    | zero => intro r h; simpa using h
    | succ n ih =>
      intro r h
      rw [Function.iterate_succ_apply]
      exact ih _ (hms r _ h)
  have hloop : ∀ (n : Nat) (r : RuntimeState DM), r.running = true →
      macroLoop env n r = (eventlessMicroStep env)^[n] r := by
    intro n
    induction n with
    | zero => intro r _; simp [macroLoop]
    | succ n ih =>
      intro r h
      rw [Function.iterate_succ_apply]
      simp only [macroLoop, h, hev r, Bool.not_true, if_false]
      exact ih _ (hms r _ h)
  refine ⟨hloop, ?_, rfl⟩
  unfold executeUntilStable
  rw [hloop maxNumMicrosteps rt hrun, hiter maxNumMicrosteps rt hrun]
  simp

/-- Witness for C4: a trivial always-looping chart reaches the iterate of its
microstep at the default bound. -/
theorem claim_C4_witness :
    executeUntilStable envLoopFix rtRunFix =
      (eventlessMicroStep envLoopFix)^[maxNumMicrosteps] rtRunFix ∧
    maxNumMicrosteps = 1000 :=
  have h := claim_C4 envLoopFix rtRunFix rfl (fun _ => rfl)
    (fun _ _ hr => hr)
  ⟨h.2.1, h.2.2⟩

/-! ## Serialization (C7) -/

/-- A nonempty list is a prefix of `i :: rest` iff it is `i` followed by a
prefix of `rest`. -/
theorem ne_nil_prefix_cons_iff {α : Type} (q : List α) (i : α) (rest : List α) :
    (q ≠ [] ∧ q <+: i :: rest) ↔ ∃ t, q = i :: t ∧ t <+: rest := by
  constructor
  · rintro ⟨hne, hp⟩
    rcases List.prefix_cons_iff.mp hp with h | ⟨t, rfl, ht⟩
    · exact absurd h hne
    · exact ⟨t, rfl, ht⟩
  · rintro ⟨t, rfl, ht⟩
    refine ⟨by simp, ?_⟩
    rw [List.cons_prefix_cons]
    exact ⟨rfl, ht⟩

/-- Inserting a root-first path into a forest adds exactly the nonempty
prefixes of that path to the readable paths. -/
theorem mem_forestPaths_insertPath (p : List String) :
    ∀ (forest : List ActiveStateElement) (q : List String),
      q ∈ forestPaths (insertPath p forest) ↔
        q ∈ forestPaths forest ∨ (q ≠ [] ∧ q <+: p) := by
  induction p with
  | nil =>
    intro f q
    simp [insertPath]
  | cons i rest ih =>
    intro f q
    show q ∈ forestPaths (insertInto i (insertPath rest) f) ↔
      q ∈ forestPaths f ∨ (q ≠ [] ∧ q <+: i :: rest)
    rw [ne_nil_prefix_cons_iff]
    induction f with
    | nil =>
      simp only [insertInto, forestPaths, List.mem_cons, List.mem_append,
        List.mem_map, List.not_mem_nil, false_or, or_false]
      constructor
      · rintro (rfl | ⟨q', hq', rfl⟩)
        · exact ⟨[], rfl, List.nil_prefix⟩
        · rcases (ih [] q').mp hq' with h | ⟨hne, hpre⟩
          · simp [forestPaths] at h
          · exact ⟨q', rfl, hpre⟩
      · rintro ⟨t, rfl, ht⟩
        cases t with
        | nil => exact Or.inl rfl
        | cons a t' =>
          exact Or.inr ⟨a :: t',
            (ih [] (a :: t')).mpr (Or.inr ⟨by simp, ht⟩), rfl⟩
    | cons nd es ihf =>
      obtain ⟨j, cs⟩ := nd
      by_cases hij : j = i
      · subst hij
        have hstep : insertInto j (insertPath rest)
            (ActiveStateElement.node j cs :: es)
            = ActiveStateElement.node j (insertPath rest cs) :: es := by
          simp [insertInto]
        rw [hstep]
        simp only [forestPaths, List.mem_cons, List.mem_append, List.mem_map]
        constructor
        · rintro ((rfl | ⟨q', hq', rfl⟩) | h)
          · exact Or.inl (Or.inl (Or.inl rfl))
          · rcases (ih cs q').mp hq' with h | ⟨hne, hpre⟩
            · exact Or.inl (Or.inl (Or.inr ⟨q', h, rfl⟩))
            · exact Or.inr ⟨q', rfl, hpre⟩
          · exact Or.inl (Or.inr h)
        · rintro (((rfl | ⟨q', hq', rfl⟩) | h) | ⟨t, rfl, ht⟩)
          · exact Or.inl (Or.inl rfl)
          · exact Or.inl (Or.inr ⟨q', (ih cs q').mpr (Or.inl hq'), rfl⟩)
          · exact Or.inr h
          · cases t with
            | nil => exact Or.inl (Or.inl rfl)
            | cons a t' =>
              exact Or.inl (Or.inr ⟨a :: t',
                (ih cs (a :: t')).mpr (Or.inr ⟨by simp, ht⟩), rfl⟩)
      · have hstep : insertInto i (insertPath rest)
            (ActiveStateElement.node j cs :: es)
            = ActiveStateElement.node j cs
              :: insertInto i (insertPath rest) es := by
          simp [insertInto, hij]
        rw [hstep]
        simp only [forestPaths, List.mem_cons, List.mem_append, List.mem_map]
        rw [ihf]
        constructor
        · rintro ((h | h) | h | h)
          · exact Or.inl (Or.inl (Or.inl h))
          · exact Or.inl (Or.inl (Or.inr h))
          · exact Or.inl (Or.inr h)
          · exact Or.inr h
        · rintro (((h | h) | h) | h)
          · exact Or.inl (Or.inl h)
          · exact Or.inl (Or.inr h)
          · exact Or.inr (Or.inl h)
          · exact Or.inr (Or.inr h)

/-- Folding path insertions over a state list adds exactly the nonempty
prefixes of all the inserted paths. -/
theorem mem_forestPaths_foldl (rp : Nat → List String) (states : List Nat) :
    ∀ (forest : List ActiveStateElement) (q : List String),
      q ∈ forestPaths (states.foldl (fun f s => insertPath (rp s) f) forest) ↔
        q ∈ forestPaths forest ∨ ∃ s ∈ states, q ≠ [] ∧ q <+: rp s := by
  induction states with
  | nil => intro forest q; simp
  | cons s ss ih =>
    intro forest q
    simp only [List.foldl_cons]
    rw [ih, mem_forestPaths_insertPath]
    simp only [List.mem_cons]
    constructor
    · rintro ((h | h) | ⟨s', hs', h⟩)
      · exact Or.inl h
      · exact Or.inr ⟨s, Or.inl rfl, h⟩
      · exact Or.inr ⟨s', Or.inr hs', h⟩
    · rintro (h | ⟨s', rfl | hs', h⟩)
      · exact Or.inl (Or.inl h)
      · exact Or.inl (Or.inr h)
      · exact Or.inr ⟨s', hs', h⟩

/-- A complete parent walk stays complete with more fuel. -/
theorem walkEndsAtRoot_mono (g : StateGraph) :
    ∀ (f : Nat) (o : Option Nat), walkEndsAtRoot g o f = true →
      ∀ f', f ≤ f' → walkEndsAtRoot g o f' = true := by
  intro f
  induction f with
  | zero =>
    intro o h f' _
    cases o with
    | none => simp [walkEndsAtRoot]
    | some s => simp [walkEndsAtRoot] at h
  | succ f ihf =>
    intro o h f' hle
    cases o with
    | none => simp [walkEndsAtRoot]
    | some s =>
      cases f' with
      | zero => omega
      | succ f'' =>
        simp only [walkEndsAtRoot] at h ⊢
        exact ihf _ h f'' (by omega)

/-- A complete parent walk yields the same chain for any larger fuel. -/
theorem chainToRoot_fuel_ext (g : StateGraph) :
    ∀ (f : Nat) (o : Option Nat), walkEndsAtRoot g o f = true →
      ∀ f', f ≤ f' → chainToRoot g o f' = chainToRoot g o f := by
  intro f
  induction f with
  | zero =>
    intro o h f' _
    cases o with
    | none => simp [chainToRoot]
    | some s => simp [walkEndsAtRoot] at h
  | succ f ihf =>
    intro o h f' hle
    cases o with
    | none => simp [chainToRoot]
    | some s =>
      cases f' with
      | zero => omega
      | succ f'' =>
        simp only [walkEndsAtRoot] at h
        simp only [chainToRoot]
        rw [ihf (g.parent s) h f'' (by omega)]

/-- Dropping `k` entries from a complete chain of an active state (in an
ancestor-closed active set) yields the complete chain of another active
state. -/
theorem chainToRoot_drop (g : StateGraph) (active : List Nat)
    (hclosed : ∀ s ∈ active, ∀ pa, g.parent s = some pa → pa ∈ active) :
    ∀ (fuel : Nat) (s : Nat), s ∈ active →
      walkEndsAtRoot g (some s) fuel = true →
      ∀ k, k < (chainToRoot g (some s) fuel).length →
      ∃ a, a ∈ active ∧ walkEndsAtRoot g (some a) (fuel - k) = true ∧
        (chainToRoot g (some s) fuel).drop k
          = chainToRoot g (some a) (fuel - k) := by
  intro fuel
  induction fuel with
  | zero =>
    intro s _ hw
    simp [walkEndsAtRoot] at hw
  | succ fuel ihf =>
    intro s hs hw k hk
    simp only [walkEndsAtRoot] at hw
    cases k with
    | zero =>
      refine ⟨s, hs, ?_, by simp⟩
      simp only [Nat.sub_zero, walkEndsAtRoot]
      exact hw
    | succ k =>
      simp only [chainToRoot, List.drop_succ_cons, List.length_cons] at hk ⊢
      cases hp : g.parent s with
      | none =>
        rw [hp] at hk
        simp [chainToRoot] at hk
      | some pa =>
        have hpa : pa ∈ active := hclosed s hs pa hp
        rw [hp] at hw hk
        have hk' : k < (chainToRoot g (some pa) fuel).length := by omega
        obtain ⟨a, ha, hw', hc⟩ := ihf pa hpa hw k hk'
        refine ⟨a, ha, ?_, ?_⟩
        · simpa [Nat.succ_sub_succ] using hw'
        · simpa [Nat.succ_sub_succ] using hc

/-- Claim C7: with pending internal events `Serialize` refuses and returns
the default (empty) record; with an empty queue it emits the running flag
and a forest whose readable id paths are exactly the root paths of the
active states (stated for ancestor-closed active sets whose parent chains
complete within the graph bound, the invariant of every running runtime). -/
theorem claim_C7 {DM : Type} (g : StateGraph) (ids : Nat → String)
    (rt : RuntimeState DM)
    (hcomplete : ∀ s ∈ rt.activeStates,
      walkEndsAtRoot g (some s) g.bound = true)
    (hclosed : ∀ s ∈ rt.activeStates, ∀ pa, g.parent s = some pa →
      pa ∈ rt.activeStates) :
    (rt.internalQueue ≠ [] →
      serializeRuntime g ids rt = { running := false, active_state := [] }) ∧
    (rt.internalQueue = [] →
      (serializeRuntime g ids rt).running = rt.running ∧
      ∀ p, p ∈ forestPaths (serializeRuntime g ids rt).active_state ↔
        ∃ s ∈ rt.activeStates, p = rootPathIds g ids s) := by
  constructor
  · intro hne
    have hf : hasInternalEvent rt = true := by
      unfold hasInternalEvent
      cases h : rt.internalQueue with
      | nil => exact absurd h hne
      | cons a l => simp
    unfold serializeRuntime
    rw [hf]
    rfl
  · intro hq
    have hserial : serializeRuntime g ids rt =
        { running := rt.running
          active_state := rt.activeStates.foldl
            (fun forest s => insertPath (rootPathIds g ids s) forest) [] } := by
      unfold serializeRuntime hasInternalEvent
      rw [hq]
      rfl
    rw [hserial]
    refine ⟨rfl, ?_⟩
    intro p
    show p ∈ forestPaths (rt.activeStates.foldl
      (fun forest s => insertPath (rootPathIds g ids s) forest) []) ↔ _
    rw [mem_forestPaths_foldl]
    simp only [forestPaths, List.not_mem_nil, false_or]
    constructor
    · rintro ⟨s, hs, hne, hpre⟩
      have hw := hcomplete s hs
      have hple : p.length ≤ (chainToRoot g (some s) g.bound).length := by
        have h1 := hpre.length_le
        simpa [rootPathIds] using h1
      have hplen1 : 1 ≤ p.length := by
        cases p with
        | nil => exact absurd rfl hne
        | cons a l => simp
      have hclen1 : 1 ≤ (chainToRoot g (some s) g.bound).length := by omega
      have hk : (chainToRoot g (some s) g.bound).length - p.length
          < (chainToRoot g (some s) g.bound).length := by omega
      obtain ⟨a, ha, hw', hc⟩ := chainToRoot_drop g rt.activeStates hclosed
        g.bound s hs hw
        ((chainToRoot g (some s) g.bound).length - p.length) hk
      refine ⟨a, ha, ?_⟩
      have hptake : p =
          (((chainToRoot g (some s) g.bound).drop
            ((chainToRoot g (some s) g.bound).length - p.length)).reverse).map
            ids := by
        have h1 := List.prefix_iff_eq_take.mp hpre
        rw [rootPathIds] at h1
        conv_lhs => rw [h1]
        rw [← List.map_take, List.take_reverse]
      conv_lhs => rw [hptake]
      rw [hc, rootPathIds]
      rw [chainToRoot_fuel_ext g (g.bound -
        ((chainToRoot g (some s) g.bound).length - p.length)) (some a) hw'
        g.bound (Nat.sub_le _ _)]
    · rintro ⟨s, hs, rfl⟩
      refine ⟨s, hs, ?_, List.prefix_refl _⟩
      have hw := hcomplete s hs
      cases hb : g.bound with
      | zero =>
        rw [hb] at hw
        simp [walkEndsAtRoot] at hw
      | succ b =>
        rw [rootPathIds, hb]
        simp [chainToRoot]

/-- Witness for C7: a two-state chart (state 2 a child of state 1) refuses to
serialize with a pending event; serialized at quiescence it preserves the
running flag and carries the root path of the leaf state. -/
theorem claim_C7_witness :
    serializeRuntime gSerFix idsSerFix rtSerPendingFix =
      { running := false, active_state := [] } ∧
    (serializeRuntime gSerFix idsSerFix rtSerFix).running = rtSerFix.running ∧
    (["a", "b"] ∈
        forestPaths (serializeRuntime gSerFix idsSerFix rtSerFix).active_state ↔
      ∃ s ∈ rtSerFix.activeStates,
        ["a", "b"] = rootPathIds gSerFix idsSerFix s) := by
  have hcom : ∀ s ∈ rtSerFix.activeStates,
      walkEndsAtRoot gSerFix (some s) gSerFix.bound = true := by decide
  have hclo : ∀ s ∈ rtSerFix.activeStates, ∀ pa,
      gSerFix.parent s = some pa → pa ∈ rtSerFix.activeStates := by
    intro s hs pa hp
    fin_cases hs <;> simp_all [gSerFix, rtSerFix]
  have hcom' : ∀ s ∈ rtSerPendingFix.activeStates,
      walkEndsAtRoot gSerFix (some s) gSerFix.bound = true := by decide
  have hclo' : ∀ s ∈ rtSerPendingFix.activeStates, ∀ pa,
      gSerFix.parent s = some pa → pa ∈ rtSerPendingFix.activeStates := by
    intro s hs pa hp
    fin_cases hs <;> simp_all [gSerFix, rtSerPendingFix]
  refine ⟨?_, ?_, ?_⟩
  · exact (claim_C7 gSerFix idsSerFix rtSerPendingFix hcom' hclo').1
      (by simp [rtSerPendingFix])
  · exact ((claim_C7 gSerFix idsSerFix rtSerFix hcom hclo).2 rfl).1
  · exact ((claim_C7 gSerFix idsSerFix rtSerFix hcom hclo).2 rfl).2 ["a", "b"]

/-- C9: for numeric operand values `a` and `b`, `DivideOperation` fails
when `b` is zero (no NaN or infinite result is ever produced), and for
nonzero `b` it succeeds, with truncating integer division when both
operands are integer-typed and real division otherwise. -/
theorem claim_C9 (a b : Token) (ha : a.isValue = true)
    (hb : b.isValue = true) (han : a.val.isNumeric = true)
    (hbn : b.val.isNumeric = true) :
    (b.val.asDouble = 0 → divideOperation a b = none) ∧
    (b.val.asDouble ≠ 0 → divideOperation a b =
      some (.value (match a.val, b.val with
        | .int na, .int nb => .int (Int.tdiv na nb)
        | va, vb => .real (va.asDouble / vb.asDouble)))) := by
  constructor
  · intro h0
    simp [divideOperation, hbn, h0]
  · intro hnz
    have hz : (b.val.asDouble == 0) = false := by
      simp [hnz]
    cases a with
    | empty => simp [Token.isValue] at ha
    | op s => simp [Token.isValue] at ha
    | sysfun s => simp [Token.isValue] at ha
    | value va =>
      cases b with
      | empty => simp [Token.isValue] at hb
      | op s => simp [Token.isValue] at hb
      | sysfun s => simp [Token.isValue] at hb
      | value vb =>
        cases va <;> cases vb <;>
          simp_all [divideOperation, numericOperationMeta, Token.isInteger,
            Token.isValue, Token.val, JsonValue.isNumeric, JsonValue.isBool,
            JsonValue.isDouble, JsonValue.asInt, JsonValue.asDouble]
      | ref vb =>
        cases va <;> cases vb <;>
          simp_all [divideOperation, numericOperationMeta, Token.isInteger,
            Token.isValue, Token.val, JsonValue.isNumeric, JsonValue.isBool,
            JsonValue.isDouble, JsonValue.asInt, JsonValue.asDouble]
    | ref va =>
      cases b with
      | empty => simp [Token.isValue] at hb
      | op s => simp [Token.isValue] at hb
      | sysfun s => simp [Token.isValue] at hb
      | value vb =>
        cases va <;> cases vb <;>
          simp_all [divideOperation, numericOperationMeta, Token.isInteger,
            Token.isValue, Token.val, JsonValue.isNumeric, JsonValue.isBool,
            JsonValue.isDouble, JsonValue.asInt, JsonValue.asDouble]
      | ref vb =>
        cases va <;> cases vb <;>
          simp_all [divideOperation, numericOperationMeta, Token.isInteger,
            Token.isValue, Token.val, JsonValue.isNumeric, JsonValue.isBool,
            JsonValue.isDouble, JsonValue.asInt, JsonValue.asDouble]

/-- Witness for C9 at `7 / 0` (failure) and `7 / 2` (integer division). -/
theorem claim_C9_witness :
    divideOperation (.value (.int 7)) (.value (.int 0)) = none ∧
    divideOperation (.value (.int 7)) (.value (.int 2)) =
      some (.value (.int 3)) := by
  constructor
  · exact (claim_C9 (.value (.int 7)) (.value (.int 0)) rfl rfl rfl rfl).1
      (by decide)
  · exact ((claim_C9 (.value (.int 7)) (.value (.int 2)) rfl rfl rfl rfl).2
      (by decide)).trans rfl

/-- C8: for every array stored at `arr`, (1) evaluating the dot form
`arr.length` (presubstituted to the bracket form) yields the array's size
as an integer literal value token, not a store reference; (2) the
`SubstituteElementAccess` pass rewrites `t [ "length" ]` for any
array-valued token `t` (value or reference) to that integer literal; and
(3) every assignment `arr.length := expr` fails and leaves the store
unchanged. -/
theorem claim_C8 (es : List JsonValue) :
    processExpression ctxNoFun (some []) (storeC8 es) "arr.length".toList =
      some (.value (.int es.length)) ∧
    (∀ t : Token, t.isValue = true → t.val = .arr es →
      subElemGo 5 []
        [t, .op "[".toList, .value (.str "length".toList), .op "]".toList] =
        some [.value (.int es.length)]) ∧
    (∀ expr, lwdAssignExpression ctxNoFun (some []) (storeC8 es)
      "arr.length".toList expr = (false, storeC8 es)) := by
  refine ⟨rfl, ?_, ?_⟩
  · intro t ht hv
    cases t with
    | empty => simp [Token.isValue] at ht
    | op s => simp [Token.isValue] at ht
    | sysfun s => simp [Token.isValue] at ht
    | value v =>
      have : v = .arr es := hv
      subst this
      rfl
    | ref v =>
      have : v = .arr es := hv
      subst this
      rfl
  · intro expr
    have hna : lwdIsAssignable ctxNoFun (some []) (storeC8 es)
        "arr.length".toList = false := by with_unfolding_all rfl
    unfold lwdAssignExpression lwdAssignJson
    rw [hna]
    rcases h : (if expr.isEmpty then some JsonValue.null
      else match processExpression ctxNoFun (some []) (storeC8 es) expr with
        | some t => some t.val
        | none => none) with _ | v <;> simp

/-- Witness for C8 on the array `[1, 2, 3]`: the length evaluates to the
literal 3, the element-access pass rewrites a reference token, and
assigning `5` to `arr.length` fails without changing the store. -/
theorem claim_C8_witness :
    processExpression ctxNoFun (some [])
      (storeC8 [.int 1, .int 2, .int 3]) "arr.length".toList =
      some (.value (.int 3)) ∧
    subElemGo 5 []
      [.ref (.arr [.int 1, .int 2, .int 3]), .op "[".toList,
        .value (.str "length".toList), .op "]".toList] =
      some [.value (.int 3)] ∧
    lwdAssignExpression ctxNoFun (some [])
      (storeC8 [.int 1, .int 2, .int 3]) "arr.length".toList "5".toList =
      (false, storeC8 [.int 1, .int 2, .int 3]) := by
  refine ⟨(claim_C8 [.int 1, .int 2, .int 3]).1, ?_, ?_⟩
  · exact (claim_C8 [.int 1, .int 2, .int 3]).2.1
      (.ref (.arr [.int 1, .int 2, .int 3])) rfl rfl
  · exact (claim_C8 [.int 1, .int 2, .int 3]).2.2 "5".toList

/-! ## Lexical lemmas about identifier dot-paths -/

theorem mem_identStart_tail {c : Char} (h : c ∈ identStartChars) :
    c ∈ identTailChars :=
  List.mem_append_left _ h

theorem identStart_facts (c : Char) (h : c ∈ identStartChars) :
    c.isDigit = false ∧ c ≠ '+' ∧ c ≠ '-' ∧ c ≠ '.' ∧ c ≠ '[' ∧ c ≠ '"' ∧
    c ≠ '\'' ∧ c ≠ Char.ofNat 123 ∧ isSpaceByte c = false := by
  fin_cases h <;> exact (by decide)

theorem identTail_facts (c : Char) (h : c ∈ identTailChars ∨ c = '.') :
    c ≠ '"' ∧ c ≠ '\'' ∧ c ≠ '\\' ∧ isSpaceByte c = false ∧ c ≠ '[' := by
  rcases h with h | rfl
  · fin_cases h <;> exact (by decide)
  · exact (by decide)

theorem matchOperator_ident (c : Char) (h : c ∈ identTailChars ∨ c = '.') :
    ∀ rest, matchOperator (c :: rest) = none := by
  rcases h with h | rfl
  · fin_cases h <;> intro rest <;> rfl
  · intro rest; rfl

theorem isIdentSeg_mem {s : List Char} (h : isIdentSeg s = true) :
    ∀ c ∈ s, c ∈ identTailChars := by
  match s, h with
  | c :: rest, h =>
    intro x hx
    unfold isIdentSeg at h
    obtain ⟨h1, h2⟩ := Bool.and_eq_true_iff.mp h
    rcases List.mem_cons.mp hx with rfl | hx
    · exact mem_identStart_tail (by simpa using h1)
    · simpa using List.all_eq_true.mp h2 x hx

theorem isIdentSeg_head {s : List Char} (h : isIdentSeg s = true) :
    ∃ c rest, s = c :: rest ∧ c ∈ identStartChars := by
  match s, h with
  | c :: rest, h =>
    refine ⟨c, rest, rfl, ?_⟩
    unfold isIdentSeg at h
    obtain ⟨h1, _⟩ := Bool.and_eq_true_iff.mp h
    simpa using h1

theorem dotJoin_cons_ne {s : List Char} {rest : List (List Char)}
    (h : rest ≠ []) : dotJoin (s :: rest) = s ++ '.' :: dotJoin rest := by
  cases rest with
  | nil => exact absurd rfl h
  | cons r rs => rfl

theorem mem_dotJoin {segs : List (List Char)}
    (hsegs : ∀ s ∈ segs, isIdentSeg s = true) :
    ∀ c ∈ dotJoin segs, c ∈ identTailChars ∨ c = '.' := by
  induction segs with
  | nil => simp [dotJoin]
  | cons s rest ih =>
    cases rest with
    | nil =>
      intro c hc
      exact Or.inl (isIdentSeg_mem (hsegs s (by simp)) c
        (by simpa [dotJoin] using hc))
    | cons r rs =>
      intro c hc
      rw [dotJoin_cons_ne (by simp)] at hc
      rcases List.mem_append.mp hc with h | h
      · exact Or.inl (isIdentSeg_mem (hsegs s (by simp)) c h)
      · rcases List.mem_cons.mp h with rfl | h
        · exact Or.inr rfl
        · exact ih (fun t ht => hsegs t (List.mem_cons_of_mem _ ht)) c h

theorem dotJoin_shape {segs : List (List Char)} (hne : segs ≠ [])
    (hsegs : ∀ s ∈ segs, isIdentSeg s = true) :
    ∃ c t, dotJoin segs = c :: t ∧ c ∈ identStartChars := by
  cases segs with
  | nil => exact absurd rfl hne
  | cons s rest =>
    obtain ⟨c, s', rfl, hc⟩ := isIdentSeg_head (hsegs s (by simp))
    cases rest with
    | nil => exact ⟨c, s', rfl, hc⟩
    | cons r rs =>
      exact ⟨c, s' ++ '.' :: dotJoin (r :: rs),
        by rw [dotJoin_cons_ne (by simp)]; rfl, hc⟩

theorem stripWS_id {l : List Char} (h : ∀ c ∈ l, isSpaceByte c = false) :
    stripWSChars l = l := by
  have h1 : l.dropWhile isSpaceByte = l := by
    cases l with
    | nil => rfl
    | cons c t => simp [List.dropWhile_cons, h c (by simp)]
  unfold stripWSChars
  rw [h1]
  have h2 : l.reverse.dropWhile isSpaceByte = l.reverse := by
    cases hr : l.reverse with
    | nil => rfl
    | cons c t =>
      have hm : c ∈ l := by
        rw [← List.mem_reverse, hr]; simp
      simp [List.dropWhile_cons, h c hm]
  rw [h2, List.reverse_reverse]

theorem tokenizeGo_ident :
    ∀ (cs : List Char) (fuel : Nat), cs.length ≤ fuel →
    (∀ c ∈ cs, c ∈ identTailChars ∨ c = '.') →
    ∀ prev q cur acc, tokenizeGo fuel cs prev false q cur acc =
      acc ++ emitOperand (cur ++ cs) := by
  intro cs
  induction cs with
  | nil =>
    intro fuel _ _ prev q cur acc
    cases fuel <;> simp [tokenizeGo]
  | cons c rest ih =>
    intro fuel hf hall prev q cur acc
    cases fuel with
    | zero => simp at hf
    | succ f =>
      have hc := hall c (by simp)
      obtain ⟨hq1, hq2, _, _, _⟩ := identTail_facts c hc
      have hop := matchOperator_ident c hc rest
      unfold tokenizeGo
      simp only [decide_eq_false hq1, decide_eq_false hq2, Bool.or_self,
        Bool.false_and, Bool.and_self, Bool.false_eq_true, if_false,
        ite_self, hop]
      rw [ih f (by simpa using hf) (fun x hx => hall x (by simp [hx]))]
      simp

theorem tokenizeExpression_ident {loc : List Char} (hne : loc ≠ [])
    (hall : ∀ c ∈ loc, c ∈ identTailChars ∨ c = '.') :
    tokenizeExpression loc = [loc] := by
  unfold tokenizeExpression
  rw [tokenizeGo_ident loc (loc.length + 1) (by omega) hall]
  have hws : ∀ c ∈ loc, isSpaceByte c = false := fun c hc =>
    (identTail_facts c (hall c hc)).2.2.2.1
  simp [emitOperand, stripWS_id hws, hne]

theorem identTail_ne_dot (c : Char) (h : c ∈ identTailChars) : c ≠ '.' := by
  fin_cases h <;> decide

theorem escapeQuotes_id {l : List Char}
    (h : ∀ c ∈ l, c ≠ '\\' ∧ c ≠ '"') : escapeQuotesChars l = l := by
  induction l with
  | nil => rfl
  | cons c t ih =>
    obtain ⟨h1, h2⟩ := h c (by simp)
    simp [escapeQuotesChars, h1, h2, ih (fun x hx => h x (by simp [hx]))]

theorem backslashUnescape_id (p : Char → Bool) {l : List Char}
    (h : ∀ c ∈ l, c ≠ '\\') : backslashUnescape p l false = l := by
  induction l with
  | nil => rfl
  | cons c t ih =>
    simp [backslashUnescape, h c (by simp),
      ih (fun x hx => h x (by simp [hx]))]

theorem noUnescapedQuote_of (q : Char) {l : List Char}
    (h : ∀ c ∈ l, c ≠ q) : ∀ prev, noUnescapedQuote q prev l = true := by
  induction l with
  | nil => intro prev; rfl
  | cons c t ih =>
    intro prev
    simp only [noUnescapedQuote, decide_eq_false (h c (by simp)),
      Bool.false_and, Bool.false_eq_true, if_false]
    exact ih (fun x hx => h x (by simp [hx])) c

theorem isQuotedString_head_false {c : Char} {rest : List Char} {q : Char}
    (hc : c ≠ q) : isQuotedStringChars (c :: rest) q = false := by
  have hb : (c == q) = false := beq_eq_false_iff_ne.mpr hc
  cases rest <;> simp [isQuotedStringChars, hb]

theorem isQuotedString_quoted {seg : List Char} {q : Char}
    (h : ∀ c ∈ seg, c ≠ q) :
    isQuotedStringChars (q :: seg ++ [q]) q = true := by
  cases seg with
  | nil => simp [isQuotedStringChars, noUnescapedQuote]
  | cons a s' =>
    simp only [isQuotedStringChars, List.cons_append, beq_self_eq_true,
      Bool.true_and]
    rw [← List.cons_append, List.getLast?_concat, List.dropLast_concat]
    simp only [beq_self_eq_true, Bool.true_and]
    exact noUnescapedQuote_of q h q

theorem quoteChars_ident {seg : List Char}
    (h : ∀ c ∈ seg, c ∈ identTailChars) :
    quoteChars seg = '"' :: seg ++ ['"'] := by
  have hq : ∀ c ∈ seg, c ≠ '"' :=
    fun c hc => (identTail_facts c (Or.inl (h c hc))).1
  have hqs : isQuotedStringChars seg '"' = false := by
    cases seg with
    | nil => rfl
    | cons c t => exact isQuotedString_head_false (hq c (by simp))
  have hesc : escapeQuotesChars seg = seg :=
    escapeQuotes_id fun c hc =>
      ⟨(identTail_facts c (Or.inl (h c hc))).2.2.1, hq c hc⟩
  simp [quoteChars, hqs, hesc]

theorem unquote_quoted {seg : List Char}
    (h : ∀ c ∈ seg, c ∈ identTailChars) :
    unquoteChars ('"' :: seg ++ ['"']) '"' = seg := by
  have hq : ∀ c ∈ seg, c ≠ '"' :=
    fun c hc => (identTail_facts c (Or.inl (h c hc))).1
  unfold unquoteChars
  rw [if_pos (isQuotedString_quoted hq)]
  rw [show ('"' :: seg ++ ['"']).drop 1 = seg ++ ['"'] from rfl,
    List.dropLast_concat]
  exact backslashUnescape_id _ fun c hc =>
    (identTail_facts c (Or.inl (h c hc))).2.2.1

theorem splitDotsAll_nodot {s : List Char} (h : ∀ c ∈ s, c ≠ '.') :
    splitDotsAll s = [s] := by
  induction s with
  | nil => rfl
  | cons c t ih =>
    simp [splitDotsAll, h c (by simp), ih (fun x hx => h x (by simp [hx]))]

theorem splitDotsAll_append {s t : List Char} (h : ∀ c ∈ s, c ≠ '.') :
    splitDotsAll (s ++ '.' :: t) = s :: splitDotsAll t := by
  induction s with
  | nil => simp [splitDotsAll]
  | cons c s' ih =>
    simp [splitDotsAll, h c (by simp), ih (fun x hx => h x (by simp [hx]))]

theorem splitDotsAll_dotJoin {segs : List (List Char)}
    (hsegs : ∀ s ∈ segs, isIdentSeg s = true) (hne : segs ≠ []) :
    splitDotsAll (dotJoin segs) = segs := by
  induction segs with
  | nil => exact absurd rfl hne
  | cons s rest ih =>
    have hdot : ∀ c ∈ s, c ≠ '.' := fun c hc =>
      identTail_ne_dot c (isIdentSeg_mem (hsegs s (by simp)) c hc)
    cases rest with
    | nil => exact splitDotsAll_nodot hdot
    | cons r rs =>
      rw [dotJoin_cons_ne (by simp), splitDotsAll_append hdot,
        ih (fun x hx => hsegs x (List.mem_cons_of_mem _ hx)) (by simp)]

theorem splitSkip_dotJoin {segs : List (List Char)}
    (hsegs : ∀ s ∈ segs, isIdentSeg s = true) (hne : segs ≠ []) :
    splitDotsSkipEmpty (dotJoin segs) = segs := by
  unfold splitDotsSkipEmpty
  rw [splitDotsAll_dotJoin hsegs hne]
  apply List.filter_eq_self.mpr
  intro s hs
  obtain ⟨c, r, rfl, _⟩ := isIdentSeg_head (hsegs s hs)
  simp

theorem takeWhile_all {p : Char → Bool} {l : List Char}
    (h : ∀ c ∈ l, p c = true) : l.takeWhile p = l := by
  induction l with
  | nil => rfl
  | cons c t ih =>
    simp [List.takeWhile_cons, h c (by simp),
      ih (fun x hx => h x (by simp [hx]))]

theorem dropWhile_all {p : Char → Bool} {l : List Char}
    (h : ∀ c ∈ l, p c = true) : l.dropWhile p = [] := by
  induction l with
  | nil => rfl
  | cons c t ih =>
    simp [List.dropWhile_cons, h c (by simp),
      ih (fun x hx => h x (by simp [hx]))]

theorem takeWhile_key_append {s t : List Char}
    (h : ∀ c ∈ s, c ∈ identTailChars) :
    (s ++ '.' :: t).takeWhile (fun c => c ≠ '.' && c ≠ '[') = s ∧
    (s ++ '.' :: t).dropWhile (fun c => c ≠ '.' && c ≠ '[') = '.' :: t := by
  induction s with
  | nil =>
    constructor <;> simp [List.takeWhile_cons, List.dropWhile_cons]
  | cons c s' ih =>
    have h1 : c ≠ '.' := identTail_ne_dot c (h c (by simp))
    have h2 : c ≠ '[' := (identTail_facts c (Or.inl (h c (by simp)))).2.2.2.2
    obtain ⟨ihT, ihD⟩ := ih (fun x hx => h x (by simp [hx]))
    have hp : (decide (c ≠ '.') && decide (c ≠ '[')) = true := by
      simp [h1, h2]
    constructor
    · simp only [List.cons_append, List.takeWhile_cons]
      rw [if_pos hp, ihT]
    · simp only [List.cons_append, List.dropWhile_cons]
      rw [if_pos hp, ihD]

theorem takeWhile_key_all {s : List Char}
    (h : ∀ c ∈ s, c ∈ identTailChars) :
    s.takeWhile (fun c => c ≠ '.' && c ≠ '[') = s ∧
    s.dropWhile (fun c => c ≠ '.' && c ≠ '[') = [] := by
  constructor
  · exact takeWhile_all fun c hc => by
      simp [identTail_ne_dot c (h c hc),
        (identTail_facts c (Or.inl (h c hc))).2.2.2.2]
  · exact dropWhile_all fun c hc => by
      simp [identTail_ne_dot c (h c hc),
        (identTail_facts c (Or.inl (h c hc))).2.2.2.2]

theorem parseJsonPathGo_nil (fuel : Nat) : parseJsonPathGo fuel [] = [] := by
  cases fuel <;> rfl

theorem parseJsonPathGo_join :
    ∀ (segs : List (List Char)) (fuel : Nat),
    (∀ s ∈ segs, isIdentSeg s = true) → segs ≠ [] →
    (dotJoin segs).length < fuel →
    parseJsonPathGo fuel (dotJoin segs) = segs.map PathArg.key := by
  intro segs
  induction segs with
  | nil => intro fuel _ hne _; exact absurd rfl hne
  | cons s rest ih =>
    intro fuel hsegs hne hf
    obtain ⟨c, s', hs, hc⟩ := isIdentSeg_head (hsegs s (by simp))
    have hmem : ∀ x ∈ s, x ∈ identTailChars :=
      isIdentSeg_mem (hsegs s (by simp))
    have hc1 : c ≠ '[' := by
      subst hs; exact (identTail_facts c (Or.inl (hmem c (by simp)))).2.2.2.2
    have hc2 : c ≠ '.' := by
      subst hs; exact identTail_ne_dot c (hmem c (by simp))
    cases rest with
    | nil =>
      subst hs
      cases fuel with
      | zero => simp at hf
      | succ f =>
        obtain ⟨hT, hD⟩ := takeWhile_key_all hmem
        show parseJsonPathGo (f + 1) (c :: s') = _
        simp only [parseJsonPathGo]
        rw [if_neg hc1, if_neg hc2, hT, hD, parseJsonPathGo_nil]
        rfl
    | cons r rs =>
      rw [dotJoin_cons_ne (by simp)] at hf ⊢
      subst hs
      cases fuel with
      | zero => simp at hf
      | succ f =>
        obtain ⟨hT, hD⟩ := @takeWhile_key_append (c :: s') (dotJoin (r :: rs)) hmem
        simp only [List.cons_append] at hT hD hf ⊢
        simp only [parseJsonPathGo]
        rw [if_neg hc1, if_neg hc2, hT, hD]
        cases f with
        | zero => simp at hf
        | succ f' =>
          have hstep : parseJsonPathGo (f' + 1) ('.' :: dotJoin (r :: rs)) =
              parseJsonPathGo f' (dotJoin (r :: rs)) := by
            simp only [parseJsonPathGo]
            rw [if_neg (by decide)]
            simp
          rw [hstep, ih f'
            (fun x hx => hsegs x (List.mem_cons_of_mem _ hx)) (by simp)
            (by simp at hf ⊢; omega)]
          simp

theorem parseJsonPath_dotJoin {segs : List (List Char)}
    (hsegs : ∀ s ∈ segs, isIdentSeg s = true) (hne : segs ≠ []) :
    parseJsonPath (dotJoin segs) = segs.map PathArg.key :=
  parseJsonPathGo_join segs _ hsegs hne (by omega)

theorem beq_false_of_head_ne {a b : Char} {l1 l2 : List Char}
    (h : (a == b) = false) : ((a :: l1) == (b :: l2)) = false := by
  apply beq_eq_false_iff_ne.mpr
  intro he
  injection he with h1 _
  rw [h1] at h
  simp at h

theorem parseIntChars_identHead (c : Char) (hc : c ∈ identStartChars)
    (rest : List Char) : parseIntChars (c :: rest) = none := by
  fin_cases hc <;> rfl

theorem isOperatorString_identHead (c : Char) (hc : c ∈ identStartChars)
    (rest : List Char) : isOperatorString (c :: rest) = false := by
  fin_cases hc <;> rfl

theorem parseDoubleCore_nondigit {c : Char} (hd : c.isDigit = false)
    (hdot : c ≠ '.') (rest : List Char) :
    parseDoubleCore (c :: rest) = none := by
  by_cases he : c = 'e' ∨ c = 'E'
  · unfold parseDoubleCore
    have hsplit :
        splitFirst (fun x => x = 'e' || x = 'E') (c :: rest) =
          ([], some rest) := by
      rcases he with rfl | rfl <;> rfl
    rw [hsplit]
    cases hp : parseIntChars rest <;> simp [splitFirst, hp]
  · have he1 : c ≠ 'e' := fun h => he (Or.inl h)
    have he2 : c ≠ 'E' := fun h => he (Or.inr h)
    unfold parseDoubleCore
    have hsplit :
        splitFirst (fun x => x = 'e' || x = 'E') (c :: rest) =
          (c :: (splitFirst (fun x => x = 'e' || x = 'E') rest).1,
            (splitFirst (fun x => x = 'e' || x = 'E') rest).2) := by
      simp [splitFirst, he1, he2]
    rw [hsplit]
    rcases hsp : splitFirst (fun x => x = 'e' || x = 'E') rest with ⟨m, e⟩
    have hip :
        splitFirst (fun x => x = '.') (c :: m) =
          (c :: (splitFirst (fun x => x = '.') m).1,
            (splitFirst (fun x => x = '.') m).2) := by
      simp [splitFirst, hdot]
    cases e with
    | none => simp [hip, hd]
    | some ex =>
      cases hpi : parseIntChars ex with
      | none => simp [hpi]
      | some k => simp [hpi, hip, hd]

theorem parseDoubleChars_identHead {c : Char} {rest : List Char}
    (hc : c ∈ identStartChars)
    (hkw1 : lowerEqKeyword (c :: rest) "inf".toList = false)
    (hkw2 : lowerEqKeyword (c :: rest) "infinity".toList = false)
    (hkw3 : lowerEqKeyword (c :: rest) "nan".toList = false) :
    parseDoubleChars (c :: rest) = none := by
  obtain ⟨hd, hp, hm, hdot, _⟩ := identStart_facts c hc
  have hkw1' : lowerEqKeyword (c :: rest) ['i', 'n', 'f'] = false := hkw1
  have hkw2' : lowerEqKeyword (c :: rest)
      ['i', 'n', 'f', 'i', 'n', 'i', 't', 'y'] = false := hkw2
  have hkw3' : lowerEqKeyword (c :: rest) ['n', 'a', 'n'] = false := hkw3
  have hcore := parseDoubleCore_nondigit hd hdot rest
  unfold parseDoubleChars
  simp [hkw1', hkw2', hkw3', hcore, hm, hp]

theorem parseDoubleChars_headQuote (seg : List Char) :
    parseDoubleChars ('"' :: seg) = none := by
  have k1 : lowerEqKeyword ('"' :: seg) ['i', 'n', 'f'] = false := by
    unfold lowerEqKeyword
    rw [List.map_cons]
    exact beq_false_of_head_ne (by decide)
  have k2 : lowerEqKeyword ('"' :: seg)
      ['i', 'n', 'f', 'i', 'n', 'i', 't', 'y'] = false := by
    unfold lowerEqKeyword
    rw [List.map_cons]
    exact beq_false_of_head_ne (by decide)
  have k3 : lowerEqKeyword ('"' :: seg) ['n', 'a', 'n'] = false := by
    unfold lowerEqKeyword
    rw [List.map_cons]
    exact beq_false_of_head_ne (by decide)
  have hcore := @parseDoubleCore_nondigit '"' (by decide) (by decide) seg
  unfold parseDoubleChars
  simp [k1, k2, k3, hcore]

theorem isQuotedString_headQuote_false {seg : List Char} :
    ∀ l2, (('"' :: seg) == l2) = true → l2 = '"' :: seg := by
  intro l2 h
  exact (beq_iff_eq.mp h).symm

theorem tokenCreate_quoted (ctx : LwdCtx) (store : JsonValue)
    {seg : List Char} (h : ∀ c ∈ seg, c ∈ identTailChars) :
    tokenCreate ctx store ('"' :: seg ++ ['"']) = some (.value (.str seg)) := by
  have hws : stripWSChars ('"' :: seg ++ ['"']) = '"' :: seg ++ ['"'] := by
    apply stripWS_id
    intro x hx
    rcases List.mem_cons.mp hx with rfl | hx
    · decide
    · rcases List.mem_append.mp hx with hx | hx
      · exact (identTail_facts x (Or.inl (h x hx))).2.2.2.1
      · simp at hx; subst hx; decide
  have e1 : (('"' :: (seg ++ ['"'])) == "null".toList) = false := by
    rw [show "null".toList = 'n' :: "ull".toList from rfl]
    exact beq_false_of_head_ne (by decide)
  have e2 : (('"' :: (seg ++ ['"'])) == "true".toList) = false := by
    rw [show "true".toList = 't' :: "rue".toList from rfl]
    exact beq_false_of_head_ne (by decide)
  have e3 : (('"' :: (seg ++ ['"'])) == "false".toList) = false := by
    rw [show "false".toList = 'f' :: "alse".toList from rfl]
    exact beq_false_of_head_ne (by decide)
  have eop : isOperatorString ('"' :: (seg ++ ['"'])) = false := rfl
  have eint : parseIntChars ('"' :: (seg ++ ['"'])) = none := rfl
  have edbl : parseDoubleChars ('"' :: (seg ++ ['"'])) = none :=
    parseDoubleChars_headQuote _
  have hq : ∀ c ∈ seg, c ≠ '"' :=
    fun c hc => (identTail_facts c (Or.inl (h c hc))).1
  have equo : isQuotedStringChars ('"' :: (seg ++ ['"'])) '"' = true :=
    isQuotedString_quoted hq
  unfold tokenCreate
  rw [hws]
  simp only [List.cons_append] at e1 e2 e3 eop eint edbl equo ⊢
  simp only [e1, e2, e3, eop, eint, edbl, equo, List.isEmpty_cons,
    Bool.false_or, Bool.or_self, Bool.false_eq_true, if_false, if_true]
  rw [show ('"' :: (seg ++ ['"'])) = '"' :: seg ++ ['"'] from rfl,
    unquote_quoted h]

theorem tokenCreate_identPath (ctx : LwdCtx) (store : JsonValue)
    {segs : List (List Char)} (hsegs : ∀ s ∈ segs, isIdentSeg s = true)
    (hne : segs ≠ []) (hkw : isKeywordLoc (dotJoin segs) = false)
    (hfun : ctx.hasFunction (dotJoin segs) = false) :
    tokenCreate ctx store (dotJoin segs) =
      match findValueInStore store (dotJoin segs) with
      | some v => some (.ref v)
      | none => none := by
  obtain ⟨c, t, hloc, hc⟩ := dotJoin_shape hne hsegs
  have hall := mem_dotJoin hsegs
  have hws : stripWSChars (dotJoin segs) = dotJoin segs :=
    stripWS_id fun x hx => (identTail_facts x (hall x hx)).2.2.2.1
  obtain ⟨hd, hplus, hminus, hdot, hbrk, hquo, hquo', hbrace, _⟩ :=
    identStart_facts c hc
  simp only [isKeywordLoc, Bool.or_eq_false_iff] at hkw
  obtain ⟨⟨⟨⟨⟨⟨k1, k2⟩, k3⟩, k4⟩, k5⟩, k6⟩, k7⟩ := hkw
  have hempty : (dotJoin segs).isEmpty = false := by rw [hloc]; rfl
  have hop : isOperatorString (dotJoin segs) = false := by
    rw [hloc]; exact isOperatorString_identHead c hc t
  have hint : parseIntChars (dotJoin segs) = none := by
    rw [hloc]; exact parseIntChars_identHead c hc t
  have hdbl : parseDoubleChars (dotJoin segs) = none := by
    rw [hloc] at k5 k6 k7 ⊢
    exact parseDoubleChars_identHead hc k5 k6 k7
  have hqs : isQuotedStringChars (dotJoin segs) '"' = false := by
    rw [hloc]; exact isQuotedString_head_false hquo
  have hmj : maybeJSONChars (dotJoin segs) = false := by
    unfold maybeJSONChars
    rw [hws, hloc]
    cases t with
    | nil => rfl
    | cons a t' => simp [hbrace]
  have hmja : maybeJSONArrayChars (dotJoin segs) = false := by
    unfold maybeJSONArrayChars
    rw [hws, hloc]
    cases t with
    | nil => rfl
    | cons a t' => simp [hbrk]
  unfold tokenCreate
  rw [hws]
  simp only [hempty, k1, k2, k3, k4, hop, hint, hdbl, hqs, hmj, hmja, hfun,
    Bool.or_self, Bool.false_or, Bool.or_false, Bool.false_eq_true, if_false]

theorem presub_identPath (store : JsonValue) {segs : List (List Char)}
    (hsegs : ∀ s ∈ segs, isIdentSeg s = true) (hne : segs ≠ [])
    (hlen : ".length".toList.isSuffixOf (dotJoin segs) = false) :
    presubstituteStringTokens store (tokenizeExpression (dotJoin segs)) =
      [dotJoin segs] := by
  obtain ⟨c, t, hloc, hc⟩ := dotJoin_shape hne hsegs
  have hall := mem_dotJoin hsegs
  have htok : tokenizeExpression (dotJoin segs) = [dotJoin segs] :=
    tokenizeExpression_ident (by rw [hloc]; simp) hall
  rw [htok]
  have hp1 : presubOne store (dotJoin segs) = [dotJoin segs] := by
    unfold presubOne
    have hq : isQuotedStringChars (dotJoin segs) '\'' = false := by
      rw [hloc]
      exact isQuotedString_head_false (identStart_facts c hc).2.2.2.2.2.2.1
    have hh : ((dotJoin segs).head? == some '.') = false := by
      rw [hloc]
      exact beq_eq_false_iff_ne.mpr
        (by simp [(identStart_facts c hc).2.2.2.1])
    simp only [hq, hh, hlen, Bool.false_eq_true, if_false]
  unfold presubstituteStringTokens
  rw [List.map_cons, List.map_nil, hp1]
  rfl

theorem jsonGetMember_set (fields : List (List Char × JsonValue))
    (k : List Char) (v : JsonValue) :
    jsonGetMember (jsonSetMember fields k v) k = some v := by
  induction fields with
  | nil => simp [jsonSetMember, jsonGetMember, List.find?]
  | cons f rest ih =>
    obtain ⟨k', w⟩ := f
    by_cases hk : (k' == k) = true
    · simp [jsonSetMember, jsonGetMember, List.find?, hk]
    · have hk' : (k' == k) = false := by
        cases h2 : (k' == k)
        · rfl
        · exact absurd h2 hk
      have h1 : jsonSetMember ((k', w) :: rest) k v =
          (k', w) :: jsonSetMember rest k v := by
        conv_lhs => unfold jsonSetMember
        rw [if_neg (by simp [hk'])]
      rw [h1]
      show jsonGetMember ((k', w) :: jsonSetMember rest k v) k = some v
      unfold jsonGetMember
      rw [List.find?_cons_of_neg _ (by simp [hk'])]
      exact ih

theorem get?_jsonSetIndex (es : List JsonValue) (i : Nat) (v : JsonValue) :
    (jsonSetIndex es i v)[i]? = some v := by
  induction es generalizing i with
  | nil =>
    induction i with
    | zero => rfl
    | succ n ihn => simpa [jsonSetIndex] using ihn
  | cons e rest ih =>
    cases i with
    | zero => simp [jsonSetIndex]
    | succ n => simpa [jsonSetIndex] using ih n

theorem pathResolve_setAtPath :
    ∀ (p : List PathArg) (s v s' : JsonValue),
    setAtPath s p v = some s' → pathResolve s' p = some v := by
  intro p
  induction p with
  | nil =>
    intro s v s' h
    have hs : setAtPath s [] v = some v := by cases s <;> rfl
    rw [hs] at h
    injection h with h
    subst h
    cases v <;> rfl
  | cons a rest ih =>
    intro s v s' h
    cases a with
    | key k =>
      cases s with
      | obj fields =>
        simp only [setAtPath, Option.map_eq_some'] at h
        obtain ⟨cur', hcur, hs'⟩ := h
        subst hs'
        simp [pathResolve, jsonGetMember_set, ih _ _ _ hcur]
      | null =>
        simp only [setAtPath, Option.map_eq_some'] at h
        obtain ⟨sub, hsub, hs'⟩ := h
        subst hs'
        simp [pathResolve, jsonGetMember, List.find?, ih _ _ _ hsub]
      | bool b => simp [setAtPath] at h
      | int n => simp [setAtPath] at h
      | real q => simp [setAtPath] at h
      | str s2 => simp [setAtPath] at h
      | arr es => simp [setAtPath] at h
    | index i =>
      cases s with
      | arr es =>
        simp only [setAtPath, Option.map_eq_some'] at h
        obtain ⟨cur', hcur, hs'⟩ := h
        subst hs'
        simp [pathResolve, get?_jsonSetIndex, ih _ _ _ hcur]
      | null =>
        simp only [setAtPath, Option.map_eq_some'] at h
        obtain ⟨sub, hsub, hs'⟩ := h
        subst hs'
        simp [pathResolve, get?_jsonSetIndex, ih _ _ _ hsub]
      | bool b => simp [setAtPath] at h
      | int n => simp [setAtPath] at h
      | real q => simp [setAtPath] at h
      | str s2 => simp [setAtPath] at h
      | obj fields => simp [setAtPath] at h

theorem tokenCreate_opStr {ctx : LwdCtx} {store : JsonValue}
    {e : List Char} {t : Token}
    (hop : isOperatorString (stripWSChars e) = false)
    (h : tokenCreate ctx store e = some t) : t.opStr = [] := by
  unfold tokenCreate at h
  simp only [] at h
  repeat' split at h
  all_goals first
    | (injection h with h2; subst h2; rfl)
    | simp_all

theorem convertTokens_groups (ctx : LwdCtx) (store : JsonValue)
    {subs : List (List Char)} (h : ∀ s ∈ subs, isIdentSeg s = true) :
    convertTokens ctx store (subs.foldr (fun seg acc =>
      "[".toList :: quoteChars seg :: "]".toList :: acc) []) =
      some (groupToks subs) := by
  induction subs with
  | nil => rfl
  | cons s rest ih =>
    have hqc : quoteChars s = '"' :: s ++ ['"'] :=
      quoteChars_ident (isIdentSeg_mem (h s (by simp)))
    have htc : tokenCreate ctx store (quoteChars s) =
        some (.value (.str s)) := by
      rw [hqc]
      exact tokenCreate_quoted ctx store (isIdentSeg_mem (h s (by simp)))
    have hbr : tokenCreate ctx store "[".toList =
        some (.op "[".toList) := rfl
    have hbr2 : tokenCreate ctx store "]".toList =
        some (.op "]".toList) := rfl
    simp only [List.foldr_cons, convertTokens, hbr, hbr2, htc,
      ih (fun x hx => h x (by simp [hx])), Option.map_some', groupToks]

theorem findParensTyped_skip {t0 : Token} (h : t0.opStr = [])
    (pre todo : List Token) :
    findParensTyped pre (t0 :: todo) = findParensTyped (pre ++ [t0]) todo := by
  conv_lhs => rw [findParensTyped]
  rw [h]
  rw [if_neg (by decide), if_neg (by decide)]

theorem findParensTyped_group (pre : List Token) (s : List Char)
    (subs : List (List Char)) :
    findParensTyped pre (groupToks (s :: subs)) =
      some ⟨pre, .op "[".toList, [.value (.str s)], .op "]".toList,
        groupToks subs⟩ := rfl

theorem substPar_groups (suv : List Token → Option (List Token)) :
    ∀ (subs : List (List Char)) (fuel : Nat) (done : List Token),
    subs.length < fuel →
    substituteParenthesesGo suv fuel done (groupToks subs) =
      some (done ++ groupToks subs) := by
  intro subs
  induction subs with
  | nil =>
    intro fuel done hf
    cases fuel with
    | zero => simp at hf
    | succ f => rfl
  | cons s rest ih =>
    intro fuel done hf
    cases fuel with
    | zero => simp at hf
    | succ f =>
      have hih := ih f
        (done ++ [Token.op "[".toList, .value (.str s), .op "]".toList])
        (by simp at hf ⊢; omega)
      unfold substituteParenthesesGo
      rw [findParensTyped_group]
      have harr : done ++ [] ++ [Token.op "[".toList] ++
          [Token.value (.str s)] ++ [Token.op "]".toList] =
          done ++ [Token.op "[".toList, .value (.str s), .op "]".toList] := by
        simp
      show substituteParenthesesGo suv f
          (done ++ [] ++ [Token.op "[".toList] ++ [Token.value (.str s)] ++
            [Token.op "]".toList]) (groupToks rest) =
        some (done ++ groupToks (s :: rest))
      rw [harr, hih]
      simp [groupToks]

theorem substPar_top (suv : List Token → Option (List Token)) (t0 : Token)
    (ht0 : t0.opStr = []) (subs : List (List Char)) (fuel : Nat)
    (hf : subs.length + 1 < fuel) :
    substituteParenthesesGo suv fuel [] (t0 :: groupToks subs) =
      some (t0 :: groupToks subs) := by
  cases fuel with
  | zero => simp at hf
  | succ f =>
    unfold substituteParenthesesGo
    rw [findParensTyped_skip ht0]
    cases subs with
    | nil => rfl
    | cons s rest =>
      rw [findParensTyped_group]
      have hih := substPar_groups suv rest f
        [t0, Token.op "[".toList, .value (.str s), .op "]".toList]
        (by simp at hf; omega)
      have harr : ([] : List Token) ++ ([] ++ [t0]) ++
          [Token.op "[".toList] ++ [Token.value (.str s)] ++
          [Token.op "]".toList] =
          [t0, Token.op "[".toList, .value (.str s), .op "]".toList] := by
        simp
      show substituteParenthesesGo suv f
          (([] : List Token) ++ ([] ++ [t0]) ++ [Token.op "[".toList] ++
            [Token.value (.str s)] ++ [Token.op "]".toList])
          (groupToks rest) =
        some (t0 :: groupToks (s :: rest))
      rw [harr, hih]
      simp [groupToks]

theorem locWalk_groups :
    ∀ (subs : List (List Char)) (store : JsonValue) (path : List PathArg)
      (isNew : Bool) (s' : JsonValue) (p' : List PathArg),
    locWalk store path isNew (groupToks subs) = (s', some p') →
    p' = path ++ subs.map PathArg.key := by
  intro subs
  induction subs with
  | nil =>
    intro store path isNew s' p' h
    rw [show groupToks [] = [] from rfl,
      show locWalk store path isNew [] = (store, some path) from rfl] at h
    injection h with h1 h2
    injection h2 with h2
    subst h2
    simp
  | cons s rest ih =>
    intro store path isNew s' p' h
    rw [show groupToks (s :: rest) = Token.op "[".toList ::
      Token.value (.str s) :: Token.op "]".toList :: groupToks rest
      from rfl] at h
    unfold locWalk at h
    simp only [Token.isOperator, Token.opStr, Token.isValue, Token.val,
      beq_self_eq_true, Bool.and_self, Bool.not_true, Bool.false_eq_true,
      if_false, Bool.and_true, Bool.true_and] at h
    rcases hres : pathResolve
        (if isNew = true then
          (setAtPath store path (JsonValue.obj [])).getD store
        else store) path with _ | v
    · rw [hres] at h
      injection h with h1 h2
      exact Option.noConfusion h2
    · rw [hres] at h
      cases v with
      | obj fields =>
        have := ih _ _ _ _ _ h
        rw [this]
        simp
      | null =>
        injection h with h1 h2
        exact Option.noConfusion h2
      | bool b =>
        injection h with h1 h2
        exact Option.noConfusion h2
      | int n =>
        injection h with h1 h2
        exact Option.noConfusion h2
      | real q =>
        injection h with h1 h2
        exact Option.noConfusion h2
      | str s2 =>
        injection h with h1 h2
        exact Option.noConfusion h2
      | arr es =>
        injection h with h1 h2
        exact Option.noConfusion h2

theorem groupToks_length (subs : List (List Char)) :
    (groupToks subs).length = 3 * subs.length := by
  induction subs with
  | nil => rfl
  | cons s rest ih =>
    simp only [groupToks, List.foldr_cons, List.length_cons] at ih ⊢
    omega

/-- For an identifier dot-path, a successful `ProcessLocationExpression`
locates exactly the path of the location's segments. -/
theorem ple_ident (ctx : LwdCtx) (runtime : Option (List (List Char)))
    (store : JsonValue) {segs : List (List Char)}
    (hsegs : ∀ s ∈ segs, isIdentSeg s = true) (hne : segs ≠ [])
    (hlen : ".length".toList.isSuffixOf (dotJoin segs) = false) :
    ∀ s1 p, processLocationExpression ctx runtime store (dotJoin segs) =
      (s1, some p) → p = segs.map PathArg.key := by
  intro s1 p hple
  have hall := mem_dotJoin hsegs
  have hws : stripWSChars (dotJoin segs) = dotJoin segs :=
    stripWS_id fun x hx => (identTail_facts x (hall x hx)).2.2.2.1
  have hpre : presubstituteStringTokens store
      (tokenizeExpression (dotJoin segs)) = [dotJoin segs] :=
    presub_identPath store hsegs hne hlen
  obtain ⟨c, t, hloc, hc⟩ := dotJoin_shape hne hsegs
  unfold processLocationExpression at hple
  rw [hws, if_neg (show ¬((dotJoin segs).isEmpty = true) by
    rw [hloc]; simp), hpre] at hple
  simp only [] at hple
  rw [splitSkip_dotJoin hsegs hne] at hple
  cases segs with
  | nil => exact absurd rfl hne
  | cons root subs =>
    have hroot : isIdentSeg root = true := hsegs root (by simp)
    have hsubs : ∀ s ∈ subs, isIdentSeg s = true :=
      fun s hs => hsegs s (List.mem_cons_of_mem _ hs)
    have hrootPath : parseJsonPath root = [PathArg.key root] := by
      have := @parseJsonPath_dotJoin [root]
        (by intro s hs; simp at hs; subst hs; exact hroot) (by simp)
      simpa [dotJoin] using this
    simp only [List.append_nil, hrootPath] at hple
    cases hdsp : isDotSeparatedPath ctx.hasFunction (dotJoin (root :: subs))
      with
    | false =>
      rw [hdsp] at hple
      simp only [Bool.not_false, if_true] at hple
      exact Option.noConfusion (congrArg Prod.snd hple)
    | true =>
      rw [hdsp] at hple
      simp only [Bool.not_true, Bool.false_eq_true, if_false] at hple
      rcases hmk : pathMake store [PathArg.key root] with _ | store1 <;>
        rw [hmk] at hple <;> (try simp only [] at hple)
      · exact Option.noConfusion (congrArg Prod.snd hple)
      · rw [show convertTokens ctx store1 (root :: subs.foldr (fun seg acc =>
          "[".toList :: quoteChars seg :: "]".toList :: acc) []) =
            (match tokenCreate ctx store1 root with
            | none => none
            | some t0 => (convertTokens ctx store1 (subs.foldr (fun seg acc =>
                "[".toList :: quoteChars seg :: "]".toList :: acc) [])).map
                (t0 :: ·)) from rfl,
          convertTokens_groups ctx store1 hsubs] at hple
        rcases htc : tokenCreate ctx store1 root with _ | t0 <;>
          rw [htc] at hple <;> (try simp only [] at hple)
        · exact Option.noConfusion (congrArg Prod.snd hple)
        · obtain ⟨cr, tr, hrs, hcr⟩ := isIdentSeg_head hroot
          have hwsr : stripWSChars root = root :=
            stripWS_id fun x hx =>
              (identTail_facts x
                (Or.inl (isIdentSeg_mem hroot x hx))).2.2.2.1
          have hopr : isOperatorString (stripWSChars root) = false := by
            rw [hwsr, hrs]
            exact isOperatorString_identHead cr hcr tr
          have ht0 : t0.opStr = [] := tokenCreate_opStr hopr htc
          simp only [Option.map_some'] at hple
          rw [substPar_top _ t0 ht0 subs _
            (by simp [groupToks_length]; omega)] at hple
          simp only [] at hple
          have hmod :
              (((t0 :: groupToks subs).length - 1) % 3 != 0) = false := by
            simp [groupToks_length]
          rw [hmod] at hple
          simp only [Bool.false_eq_true, if_false] at hple
          exact (locWalk_groups subs store1 [PathArg.key root] _ s1 p
            hple).trans (by simp)

/-- Counterexample to C6 as stated: the location `12` on the empty (null)
store.  Declare succeeds — `ProcessLocationExpression` accepts `12` as a
dot-separated path and creates the member — but `12` lexes as an integer
literal, never as a store reference, so `IsDefined("12")` stays false
after the successful declaration and a second `Declare("12")` succeeds
again; the claim says IsDefined becomes true and the second declare
fails. -/
theorem claim_C6_counterexample :
    lwdDeclare ctxNoFun (some []) .null "12".toList =
      (true, .obj [("12".toList, .null)]) ∧
    lwdIsDefined ctxNoFun (some []) (.obj [("12".toList, .null)])
      "12".toList = false ∧
    (lwdDeclare ctxNoFun (some []) (.obj [("12".toList, .null)])
      "12".toList).1 = true := by
  refine ⟨?_, ?_, ?_⟩ <;> with_unfolding_all rfl

/-- C6 (amended): restricted to identifier dot-path locations — nonempty
dot-separated segments of letters, digits and underscores starting with a
letter or underscore, the whole path not being one of the literal
keywords (`null`, `true`, `false`, `In`, and the case-insensitive
`inf`/`infinity`/`nan` accepted by the double parser) and not ending in
the array-special `.length` — the claim holds for every store and
datamodel context: (a) Declare fails when the location is already defined
or collides with a registered function; (b) after any successful Declare
the slot holds null, IsDefined is true, and a second Declare fails
leaving the store unchanged. -/
theorem claim_C6 (ctx : LwdCtx) (runtime : Option (List (List Char)))
    (store : JsonValue) (segs : List (List Char))
    (hsegs : ∀ s ∈ segs, isIdentSeg s = true) (hne : segs ≠ [])
    (hkw : isKeywordLoc (dotJoin segs) = false)
    (hlen : ".length".toList.isSuffixOf (dotJoin segs) = false) :
    ((lwdIsDefined ctx runtime store (dotJoin segs) = true ∨
        ctx.hasFunction (dotJoin segs) = true) →
      lwdDeclare ctx runtime store (dotJoin segs) = (false, store)) ∧
    (∀ store', lwdDeclare ctx runtime store (dotJoin segs) = (true, store') →
      findValueInStore store' (dotJoin segs) = some JsonValue.null ∧
      lwdIsDefined ctx runtime store' (dotJoin segs) = true ∧
      lwdDeclare ctx runtime store' (dotJoin segs) = (false, store')) := by
  have hall := mem_dotJoin hsegs
  have hws : stripWSChars (dotJoin segs) = dotJoin segs :=
    stripWS_id fun x hx => (identTail_facts x (hall x hx)).2.2.2.1
  obtain ⟨c, t, hloc, hc⟩ := dotJoin_shape hne hsegs
  constructor
  · intro h
    unfold lwdDeclare
    rcases h with h | h <;> rw [h] <;> simp
  · intro store' hsucc
    unfold lwdDeclare at hsucc
    by_cases hcond : (lwdIsDefined ctx runtime store (dotJoin segs) ||
        ctx.hasFunction (dotJoin segs)) = true
    · rw [if_pos hcond] at hsucc
      exact Bool.noConfusion (congrArg Prod.fst hsucc)
    · obtain ⟨hdef, hfun⟩ :=
        Bool.or_eq_false_iff.mp (Bool.eq_false_iff.mpr hcond)
      rw [if_neg hcond] at hsucc
      unfold lwdDeclareAndAssignJson at hsucc
      rcases hple : processLocationExpression ctx runtime store
        (dotJoin segs) with ⟨s1, opt⟩
      rw [hple] at hsucc
      cases opt with
      | none => simp at hsucc
      | some path =>
        have hpath : path = segs.map PathArg.key :=
          ple_ident ctx runtime store hsegs hne hlen s1 path hple
        subst hpath
        simp only [] at hsucc
        rcases hset : setAtPath s1 (segs.map PathArg.key) .null
          with _ | s2 <;> rw [hset] at hsucc <;> (try simp only [] at hsucc)
        · exact Bool.noConfusion (congrArg Prod.fst hsucc)
        · have hst : s2 = store' := congrArg Prod.snd hsucc
          subst hst
          have hres : pathResolve s2 (segs.map PathArg.key) =
              some JsonValue.null :=
            pathResolve_setAtPath _ _ _ _ hset
          have hfind : findValueInStore s2 (dotJoin segs) =
              some JsonValue.null := by
            unfold findValueInStore
            rw [parseJsonPath_dotJoin hsegs hne, hres]
            rfl
          have htc' : tokenCreate ctx s2 (dotJoin segs) =
              some (.ref .null) := by
            rw [tokenCreate_identPath ctx s2 hsegs hne hkw hfun, hfind]
          have hdef' : lwdIsDefined ctx runtime s2 (dotJoin segs) = true := by
            unfold lwdIsDefined processExpression
            rw [hws, if_neg (show ¬((dotJoin segs).isEmpty = true) by
              rw [hloc]; simp), htc']
            rfl
          refine ⟨hfind, hdef', ?_⟩
          unfold lwdDeclare
          rw [hdef']
          simp

/-- Witness for C6 at the location `foo` and the null store: Declare
succeeds creating the null slot, after which the slot is null, IsDefined
holds and the second Declare fails. -/
theorem claim_C6_witness :
    findValueInStore (.obj [("foo".toList, .null)]) (dotJoin ["foo".toList])
      = some JsonValue.null ∧
    lwdIsDefined ctxNoFun (some []) (.obj [("foo".toList, .null)])
      (dotJoin ["foo".toList]) = true ∧
    lwdDeclare ctxNoFun (some []) (.obj [("foo".toList, .null)])
      (dotJoin ["foo".toList]) =
      (false, .obj [("foo".toList, .null)]) := by
  exact (claim_C6 ctxNoFun (some []) JsonValue.null ["foo".toList]
    (by decide) (by decide) (by decide) (by decide)).2
    (.obj [("foo".toList, .null)]) (by with_unfolding_all rfl)

/-- Counterexample to C5 as stated: a foreach over the empty array `arr`
with the undefined item location `item` succeeds but mutates the store —
`ForEach::Execute` declares the item variable before the loop, so `item`
is defined (slot created, null) afterwards although the body ran zero
times.  The claim asserts the store is left unchanged for any item
location. -/
theorem claim_C5_counterexample :
    forEachExecute ctxNoFun (some [])
      ⟨"arr".toList, "item".toList, []⟩ (fun rt => (true, rt))
      ⟨true, [], [], storeC8 []⟩ =
      (true, ⟨true, [], [],
        .obj [("arr".toList, .arr []), ("item".toList, .null)]⟩) ∧
    lwdIsDefined ctxNoFun (some []) (storeC8 []) "item".toList = false ∧
    lwdIsDefined ctxNoFun (some [])
      (.obj [("arr".toList, .arr []), ("item".toList, .null)])
      "item".toList = true := by
  refine ⟨?_, ?_, ?_⟩ <;> with_unfolding_all rfl

/-- C5 (amended): for every foreach whose array expression evaluates to
the empty array and whose item location — and index location, when one is
given — is already defined, execution succeeds, runs the body zero times
and leaves the runtime (in particular the datamodel store and the internal
event queue) unchanged.  The theorem holds for an arbitrary body, which is
never invoked since the result does not depend on it. -/
theorem claim_C5 (ctx : LwdCtx) (runtime : Option (List (List Char)))
    (fe : ForEachData)
    (body : RuntimeState JsonValue → Bool × RuntimeState JsonValue)
    (rt : RuntimeState JsonValue)
    (harr : lwdEvaluateIterator ctx runtime rt.datamodel fe.array = some [])
    (hitem : lwdIsDefined ctx runtime rt.datamodel fe.item = true)
    (hidx : fe.index = [] ∨
      lwdIsDefined ctx runtime rt.datamodel fe.index = true) :
    forEachExecute ctx runtime fe body rt = (true, rt) := by
  unfold forEachExecute
  rw [harr]
  simp only [hitem, Bool.not_true, Bool.false_eq_true, if_false]
  unfold forEachAfterItem
  rcases hidx with h | h
  · simp [h, forEachLoop]
  · simp [h, forEachLoop]

/-- Witness for C5: a foreach over the empty array `arr` with both `item`
and `idx` already defined leaves the runtime untouched. -/
theorem claim_C5_witness :
    forEachExecute ctxNoFun (some [])
      ⟨"arr".toList, "item".toList, "idx".toList⟩ (fun rt => (false, rt))
      ⟨true, [], [], .obj [("arr".toList, .arr []), ("item".toList, .null),
        ("idx".toList, .null)]⟩ =
      (true, ⟨true, [], [], .obj [("arr".toList, .arr []),
        ("item".toList, .null), ("idx".toList, .null)]⟩) := by
  exact claim_C5 ctxNoFun (some [])
    ⟨"arr".toList, "item".toList, "idx".toList⟩ (fun rt => (false, rt))
    ⟨true, [], [], .obj [("arr".toList, .arr []), ("item".toList, .null),
      ("idx".toList, .null)]⟩
    (by with_unfolding_all rfl) (by with_unfolding_all rfl)
    (Or.inr (by with_unfolding_all rfl))

end StateChart
